import Mathlib

/-!
Verification of the helix snippet engine (`helix-core/src/snippets/*`,
`helix-stdx/src/range.rs`) against its natural-language specification.

The Rust source is shallowly embedded: each Rust function becomes a Lean
function over explicit data (machine `usize` values are modelled as `Nat`,
fallible/panicking paths return `Option`).  Types and functions keep the
source names where Lean permits.
-/

namespace Helix

/-! ## helix-stdx/src/range.rs -/

/-- `Range<usize>` from `helix-stdx/src/range.rs`: a half-open range of
character positions. -/
structure Range where
  start : Nat
  «end» : Nat
deriving DecidableEq, Repr

/-- `Range::contains` (range.rs): `(self.start <= other.start) & (other.end <= self.end)`. -/
def Range.contains (self other : Range) : Bool :=
  decide (self.start ≤ other.start) && decide (other.«end» ≤ self.«end»)

/-- `Range::is_empty` (range.rs): `self.end <= self.start`. -/
def Range.isEmptyR (self : Range) : Bool :=
  decide (self.«end» ≤ self.start)

/-- `is_subset` (range.rs): two-pointer containment test over two iterators,
embedded over lists.  The first branch mirrors the guard
`ra.end <= rb.start && ra.start < rb.start` that skips an irrelevant
super-range; otherwise containment of the current sub-range is tested. -/
def isSubset : List Range → List Range → Bool
  | ra :: sup, rb :: sub =>
    if ra.«end» ≤ rb.start ∧ ra.start < rb.start then
      isSubset sup (rb :: sub)
    else if ra.contains rb then
      isSubset (ra :: sup) sub
    else
      false
  | [], _ :: _ => false
  | _, [] => true
termination_by sup sub => sup.length + sub.length
decreasing_by
  all_goals simp_arith [List.length]

/-- The naive all-pairs containment check the spec compares `is_subset`
against: every sub-range is contained in some super-range. -/
def isSubsetNaive (sup sub : List Range) : Bool :=
  sub.all fun rb => sup.any fun ra => ra.contains rb

/-- Sorted and pairwise non-overlapping (adjacency permitted): each range
ends at or before the next one starts. -/
def SortedDisjoint (l : List Range) : Prop :=
  l.Chain' fun r1 r2 => r1.«end» ≤ r2.start

/-- All ranges in the list are non-empty intervals. -/
def AllNonEmpty (l : List Range) : Prop :=
  ∀ r ∈ l, r.start < r.«end»

/-! ## helix-core/src/snippets: parser output contract

The template tokenizer/parser (`snippets/parser.rs`) is an external
collaborator: only its output contract is specified (spec §6). -/

/-- `parser::CaseChange` (used by `FormatItem::CaseChange`). -/
inductive CaseChange where
  | Upcase
  | Downcase
  | Capitalize
  | PascalCase
  | CamelCase
deriving DecidableEq, Repr

/-- `parser::FormatItem`: one item of a transform's replacement template. -/
inductive FormatItem where
  | Text (s : String)
  | Capture (i : Nat)
  | CaseChange (i : Nat) (c : CaseChange)
  | Conditional (i : Nat) (if_ : String) (else_ : String)
deriving DecidableEq, Repr

/-- `parser::Transform`: raw regex text, replacement template and option
characters, as produced by the external parser. -/
structure PTransform where
  regex : String
  replacement : List FormatItem
  options : String
deriving DecidableEq, Repr

mutual
/-- Modelled from the spec: `parser::SnippetElement`, the raw template tree
produced by the external grammar (spec §6) and consumed by
`Snippet::new`/`Snippet::elaborate` (elaborate.rs).  Raw tabstop numbers are
the integer literals written in the template (spec §3). -/
inductive PElement where
  | Text (s : String)
  | Tabstop (tabstop : Nat) (transform : Option PTransform)
  | Placeholder (tabstop : Nat) (value : PElementList)
  | Choice (tabstop : Nat) (choices : List String)
  | Variable (name : String) (default : Option PElementList) (transform : Option PTransform)

/-- A sequence of raw template elements (`Vec<parser::SnippetElement>`). -/
inductive PElementList where
  | nil
  | cons (h : PElement) (t : PElementList)
end

/-! ## helix-core/src/snippets/elaborate.rs -/

/-- Model of a compiled `regex::Regex` together with the builder flags set by
`Transform::new`.  Whether a pattern compiles is external to this repository
(the `regex` crate), so it is abstracted as the `buildOk` parameter of
`Transform.new». -/
structure Regex where
  pattern : String
  caseInsensitive : Bool
  multiLine : Bool
deriving DecidableEq, Repr

/-- `Transform` (elaborate.rs): compiled regex, global flag, replacement. -/
structure Transform where
  regex : Regex
  global : Bool
  replacement : List FormatItem
deriving DecidableEq, Repr

/-- State of the flag-character loop in `Transform::new`. -/
structure TransformFlags where
  caseInsensitive : Bool
  multiLine : Bool
  global : Bool
  invalidConfig : Bool
deriving DecidableEq, Repr

/-- The `for c in transform.options.chars()` loop of `Transform::new`:
`i` sets case-insensitivity, `m` multi-line, `g` the global flag, and any
other character only sets `invalid_config` (which is merely logged). -/
def transformFlags (options : List Char) : TransformFlags :=
  options.foldl
    (fun st c =>
      if c = 'i' then { st with caseInsensitive := true }
      else if c = 'm' then { st with multiLine := true }
      else if c = 'g' then { st with global := true }
      else { st with invalidConfig := true })
    ⟨false, false, false, false⟩

/-- `Transform::new` (elaborate.rs): parses option characters, then builds the
regex; returns `none` exactly when the regex fails to build (`buildOk`
abstracts the external regex compiler).  An invalid option character is
logged but does not fail the construction. -/
def Transform.new (buildOk : String → Bool) (t : PTransform) : Option Transform :=
  let flags := transformFlags t.options.toList
  if buildOk t.regex then
    some { regex := { pattern := t.regex,
                      caseInsensitive := flags.caseInsensitive,
                      multiLine := flags.multiLine },
           global := flags.global,
           replacement := t.replacement }
  else
    none

mutual
/-- `SnippetElement` (elaborate.rs): element tree of an elaborated snippet.
Before `renumber_tabstops` the `Tabstop` payload is a raw index, afterwards a
resolved position into the tabstop table. -/
inductive SnippetElement where
  | Tabstop (idx : Nat)
  | Variable (name : String) (default : Option SElementList) (transform : Option Transform)
  | Text (s : String)

/-- A sequence of elaborated snippet elements. -/
inductive SElementList where
  | nil
  | cons (h : SnippetElement) (t : SElementList)

/-- `TabstopKind` (elaborate.rs). -/
inductive TabstopKind where
  | Choice (choices : List String)
  | Placeholder (default : SElementList)
  | Empty
  | Transform (t : Transform)
end

/-- `TabstopKind::is_empty`: true only for the `Empty` variant. -/
def TabstopKind.isEmptyKind : TabstopKind → Bool
  | .Empty => true
  | _ => false

/-- `Tabstop` (elaborate.rs): raw index, optional parent reference, kind. -/
structure Tabstop where
  idx : Nat
  parent : Option Nat
  kind : TabstopKind

/-- `Snippet` (elaborate.rs): elaborated element tree plus tabstop table. -/
structure Snippet where
  elements : SElementList
  tabstops : List Tabstop

/-- `LAST_TABSTOP_IDX` (snippets.rs): `TabstopIdx(0)`. -/
def LAST_TABSTOP_IDX : Nat := 0

def SElementList.append : SElementList → SElementList → SElementList
  | .nil, l => l
  | .cons h t, l => .cons h (t.append l)

mutual
/-- `Snippet::elaborate` (elaborate.rs) restricted to one raw element:
returns the rewritten element and the `Tabstop` records pushed while
processing it, in push order.  A bare tabstop with no transform and a
placeholder both go through `elaborate_placeholder`; a transformed tabstop
through `elaborate_transform` (degrading to `Empty` if the transform fails);
a choice through `elaborate_choice`; a variable elaborates its default with
the same parent and compiles its transform with `Transform::new`. -/
def elaborateElem (buildOk : String → Bool) (parent : Option Nat) :
    PElement → SnippetElement × List Tabstop
  | .Text s => (.Text s, [])
  | .Tabstop n none =>
    (.Tabstop n, [⟨n, parent, .Placeholder .nil⟩])
  | .Tabstop n (some tr) =>
    (.Tabstop n,
      [⟨n, parent,
        match Transform.new buildOk tr with
        | some t => .Transform t
        | none => .Empty⟩])
  | .Placeholder n value =>
    let (d, ts) := elaborateList buildOk (some n) value
    (.Tabstop n, ts ++ [⟨n, parent, .Placeholder d⟩])
  | .Choice n choices =>
    (.Tabstop n, [⟨n, parent, .Choice choices⟩])
  | .Variable name none transform =>
    (.Variable name none (transform.bind (Transform.new buildOk)), [])
  | .Variable name (some dflt) transform =>
    let (d, ts) := elaborateList buildOk parent dflt
    (.Variable name (some d) (transform.bind (Transform.new buildOk)), ts)

/-- `Snippet::elaborate` over an element sequence: elements are processed in
order and their pushed tabstop records are concatenated in push order. -/
def elaborateList (buildOk : String → Bool) (parent : Option Nat) :
    PElementList → SElementList × List Tabstop
  | .nil => (.nil, [])
  | .cons e rest =>
    let (s1, t1) := elaborateElem buildOk parent e
    let (s2, t2) := elaborateList buildOk parent rest
    (.cons s1 s2, t1 ++ t2)
end

/-- The sort key order of `sort_by_key(|tabstop| tabstop.idx)`. -/
def idxLe (a b : Tabstop) : Prop :=
  a.idx ≤ b.idx

instance : DecidableRel idxLe := fun a b => Nat.decLe a.idx b.idx

instance : IsTotal Tabstop idxLe :=
  ⟨fun a b => Nat.le_total a.idx b.idx⟩

instance : IsTrans Tabstop idxLe :=
  ⟨fun _ _ _ => Nat.le_trans⟩

/-- `self.tabstops.sort_by_key(|tabstop| tabstop.idx)` — a stable sort by raw
index, modelled as stable insertion sort. -/
def sortByIdx (ts : List Tabstop) : List Tabstop :=
  List.insertionSort idxLe ts

/-- The `dedup_by` loop of `Snippet::fixup_tabstops`: `b` is the currently
kept record of the run; a later record `a` with the same raw index is
dropped, except that when the kept record's kind is `Empty` the two are
swapped first (so the first record whose kind is not the `Empty` variant
survives). -/
def dedupGo (b : Tabstop) : List Tabstop → List Tabstop
  | [] => [b]
  | a :: ts =>
    if a.idx = b.idx then
      dedupGo (if b.kind.isEmptyKind then a else b) ts
    else
      b :: dedupGo a ts

/-- `Snippet::fixup_tabstops`' `dedup_by` over the sorted table. -/
def dedupTabstops : List Tabstop → List Tabstop
  | [] => []
  | t :: ts => dedupGo t ts

/-- `Snippet::fixup_tabstops` (elaborate.rs): stable sort by raw index, then
dedup equal raw indices. -/
def fixupTabstops (ts : List Tabstop) : List Tabstop :=
  dedupTabstops (sortByIdx ts)

/-- `Snippet::ensure_last_tabstop` (elaborate.rs): if the first table entry
does not have raw index `LAST_TABSTOP_IDX = 0`, insert a synthesized `Empty`
tabstop with raw index 0 at the front of the table and append a `$0`
reference to the root element sequence. -/
def ensureLastTabstop (s : Snippet) : Snippet :=
  match s.tabstops with
  | t :: _ =>
    if t.idx = LAST_TABSTOP_IDX then s
    else
      { elements := s.elements.append (.cons (.Tabstop LAST_TABSTOP_IDX) .nil),
        tabstops := ⟨LAST_TABSTOP_IDX, none, .Empty⟩ :: s.tabstops }
  | [] =>
    { elements := s.elements.append (.cons (.Tabstop LAST_TABSTOP_IDX) .nil),
      tabstops := [⟨LAST_TABSTOP_IDX, none, .Empty⟩] }

/-- The `binary_search_by_key(&idx, |tabstop| tabstop.idx)` lookup used by
`renumber_tabstops`: on the sorted, deduplicated table it finds the unique
position holding raw index `i`; `none` models the `expect` panic. -/
def lookupIdx : List Tabstop → Nat → Option Nat
  | [], _ => none
  | t :: rest, i =>
    if t.idx = i then some 0
    else (lookupIdx rest i).map (· + 1)

mutual
/-- `Snippet::renumber_tabstops_in` (elaborate.rs): replace every raw tabstop
reference in an element with its resolved table position, recursing into
variable defaults.  `none` models the `expect("all tabstops have been
resolved")` panic. -/
def renumberElem (ts : List Tabstop) : SnippetElement → Option SnippetElement
  | .Tabstop i =>
    match lookupIdx ts i with
    | some r => some (.Tabstop r)
    | none => none
  | .Variable name none tr => some (.Variable name none tr)
  | .Variable name (some d) tr =>
    match renumberList ts d with
    | some d2 => some (.Variable name (some d2) tr)
    | none => none
  | .Text s => some (.Text s)

/-- `renumber_tabstops_in` over an element sequence. -/
def renumberList (ts : List Tabstop) : SElementList → Option SElementList
  | .nil => some .nil
  | .cons e rest =>
    match renumberElem ts e, renumberList ts rest with
    | some e2, some rest2 => some (.cons e2 rest2)
    | _, _ => none
end

/-- One iteration of the `renumber_tabstops` loop body: resolve the parent
link and renumber the placeholder default (both looked up against the full
table, whose `idx` keys the loop never mutates). -/
def renumberTabstop (ts : List Tabstop) (t : Tabstop) : Option Tabstop :=
  let parent2 : Option (Option Nat) :=
    match t.parent with
    | none => some none
    | some p =>
      match lookupIdx ts p with
      | some r => some (some r)
      | none => none
  let kind2 : Option TabstopKind :=
    match t.kind with
    | .Placeholder d =>
      match renumberList ts d with
      | some d2 => some (.Placeholder d2)
      | none => none
    | k => some k
  match parent2, kind2 with
  | some p2, some k2 => some { t with parent := p2, kind := k2 }
  | _, _ => none

/-- Apply `renumberTabstop` to every table record (the `for i in
0..self.tabstops.len()` loop of `renumber_tabstops`), failing if any
iteration panics. -/
def renumberTable (full : List Tabstop) : List Tabstop → Option (List Tabstop)
  | [] => some []
  | t :: ts =>
    match renumberTabstop full t, renumberTable full ts with
    | some t2, some ts2 => some (t2 :: ts2)
    | _, _ => none

/-- `Snippet::renumber_tabstops` (elaborate.rs). -/
def renumberTabstops (s : Snippet) : Option Snippet :=
  match renumberList s.tabstops s.elements with
  | none => none
  | some els =>
    match renumberTable s.tabstops s.tabstops with
    | none => none
    | some ts => some { elements := els, tabstops := ts }

/-- `Snippet::new` (elaborate.rs): elaborate, fixup, ensure the terminal
tabstop, renumber.  `none` models a panic in `renumber_tabstops`. -/
def Snippet.new (buildOk : String → Bool) (elements : PElementList) : Option Snippet :=
  let (els, ts) := elaborateList buildOk none elements
  renumberTabstops
    (ensureLastTabstop { elements := els, tabstops := fixupTabstops ts })

/-! ## helix-core/src/snippets/render.rs -/

/-- `render::TabstopKind` (render.rs). -/
inductive RTabstopKind where
  | Choice (choices : List String)
  | Placeholder
  | Empty
  | Transform (t : Transform)
deriving DecidableEq, Repr

/-- `render::Tabstop` (render.rs): the rendered ranges, parent link and kind
of one tabstop. -/
structure RTabstop where
  ranges : List Range
  parent : Option Nat
  kind : RTabstopKind
deriving DecidableEq, Repr

/-- `Tabstop::has_placeholder` (render.rs). -/
def RTabstop.hasPlaceholder (t : RTabstop) : Bool :=
  match t.kind with
  | .Choice _ => true
  | .Placeholder => true
  | _ => false

/-- `RenderedSnippet` (render.rs): rendered tabstop table plus the top-level
insertion ranges. -/
structure RenderedSnippet where
  tabstops : List RTabstop
  ranges : List Range
deriving DecidableEq, Repr

/-- `Snippet::prepare_render` (render.rs): one rendered record per elaborated
tabstop; `Choice`/`Transform` kinds are carried over, `Placeholder` and
`Empty` both start out as `Empty`. -/
def Snippet.prepareRender (s : Snippet) : RenderedSnippet :=
  { tabstops := s.tabstops.map fun t =>
      { ranges := [],
        parent := t.parent,
        kind :=
          match t.kind with
          | .Choice cs => .Choice cs
          | .Empty => .Empty
          | .Placeholder _ => .Empty
          | .Transform tr => .Transform tr },
    ranges := [] }

/-- Modelled from the spec: the renderer's host inputs (§6) — the
newline-plus-indentation prefix, the variable resolver
(`name → optional string`), and the regex substitution `Transform::apply`,
whose regex engine is external to this repository. -/
structure RenderCtx where
  newlineWithOffset : String
  resolveVar : String → Option String
  applyTransform : Transform → String → String

/-- The mutable state of `SnippetRender` (render.rs): the rendered snippet
being filled in, the accumulated text, and the running character offset. -/
structure RState where
  dst : RenderedSnippet
  text : String
  off : Nat
deriving DecidableEq, Repr

/-- `SnippetRender::push_str` (render.rs): append text and advance the offset
by the number of characters pushed. -/
def pushStr (st : RState) (s : String) : RState :=
  { st with text := st.text ++ s, off := st.off + s.length }

/-- `text.split('\n')` over the character list of a literal run. -/
def splitNl : List Char → List (List Char)
  | [] => [[]]
  | c :: rest =>
    match splitNl rest with
    | [] => [[]]
    | l :: ls => if c = '\n' then [] :: l :: ls else (c :: l) :: ls

/-- `strip_suffix('\r').unwrap_or(it)`: drop one trailing carriage return. -/
def stripCr (l : List Char) : List Char :=
  match l.getLast? with
  | some c => if c = '\r' then l.dropLast else l
  | none => l

/-- Rendering of one literal text run (the `SnippetElement::Text` arm of
`render_element`): split on newlines, strip a trailing carriage return from
each line, and join with the newline-plus-indentation prefix. -/
def renderText (st : RState) (newlineWithOffset : String) (s : String) : RState :=
  match (splitNl s.data).map (fun it => String.mk (stripCr it)) with
  | [] => st
  | first :: rest =>
    rest.foldl (fun acc line => pushStr (pushStr acc newlineWithOffset) line)
      (pushStr st first)

/-- Update the rendered record at table position `idx` (the
`IndexMut<TabstopIdx> for RenderedSnippet` access `self.dst[tabstop]`). -/
def RenderedSnippet.modifyTabstop (r : RenderedSnippet) (idx : Nat)
    (f : RTabstop → RTabstop) : RenderedSnippet :=
  { r with
    tabstops :=
      match r.tabstops.get? idx with
      | some t => r.tabstops.set idx (f t)
      | none => r.tabstops }

mutual
/-- `SnippetRender::render_elements` (render.rs), with a fuel argument: the
recursion descends into placeholder defaults through the tabstop table, which
is not structural (the Rust code would diverge on a cyclic table).  `none`
models running out of fuel or an out-of-bounds table access. -/
def renderList : Nat → Snippet → RenderCtx → SElementList → RState → Option RState
  | 0, _, _, _, _ => none
  | _ + 1, _, _, .nil, st => some st
  | fuel + 1, src, ctx, .cons e rest, st =>
    match renderElem fuel src ctx e st with
    | some st1 => renderList fuel src ctx rest st1
    | none => none

/-- `SnippetRender::render_element` (render.rs): a tabstop reference renders
via `render_tabstop`; a variable emits the resolved value (through its
transform when present — `Transform::apply` pushes into the text buffer
without advancing `off`, exactly as in the source) or falls back to its
default elements; a text run is re-indented via the newline prefix. -/
def renderElem : Nat → Snippet → RenderCtx → SnippetElement → RState → Option RState
  | 0, _, _, _, _ => none
  | fuel + 1, src, ctx, .Tabstop idx, st => renderTabstop fuel src ctx idx st
  | _ + 1, _, ctx, .Variable name none tr, st =>
    (match ctx.resolveVar name with
     | some val =>
       match tr with
       | some t => some { st with text := st.text ++ ctx.applyTransform t val }
       | none => some (pushStr st val)
     | none => some st)
  | fuel + 1, src, ctx, .Variable name (some d) tr, st =>
    (match ctx.resolveVar name with
     | some val =>
       match tr with
       | some t => some { st with text := st.text ++ ctx.applyTransform t val }
       | none => some (pushStr st val)
     | none => renderList fuel src ctx d st)
  | _ + 1, _, ctx, .Text s, st => some (renderText st ctx.newlineWithOffset s)

/-- `SnippetRender::render_tabstop` (render.rs): record the range covered by
the tabstop at the current offset; a `Placeholder` whose default element list
is non-empty renders the default first and promotes the rendered kind to
`Placeholder`; every other kind records an empty range.  `none` models an
out-of-bounds `self.src[tabstop]` / `self.dst[tabstop]` access. -/
def renderTabstop : Nat → Snippet → RenderCtx → Nat → RState → Option RState
  | 0, _, _, _, _ => none
  | fuel + 1, src, ctx, idx, st =>
    let start := st.off
    match src.tabstops.get? idx with
    | none => none
    | some srcTab =>
      if idx < st.dst.tabstops.length then
        match srcTab.kind with
        | .Placeholder (.cons d0 drest) =>
          (match renderList fuel src ctx (.cons d0 drest) st with
           | some st1 =>
             let st2 :=
               { st1 with
                 dst := st1.dst.modifyTabstop idx
                   fun t => { t with kind := .Placeholder } }
             some
               { st2 with
                 dst := st2.dst.modifyTabstop idx
                   fun t => { t with ranges := t.ranges ++ [⟨start, st1.off⟩] } }
           | none => none)
        | _ =>
          some
            { st with
              dst := st.dst.modifyTabstop idx
                fun t => { t with ranges := t.ranges ++ [⟨start, start⟩] } }
      else none
end

/-- `Snippet::render_at` (render.rs): render the element tree starting at
character position `pos`, then push the covered top-level range; returns the
updated rendered snippet together with the produced text and its length. -/
def Snippet.renderAt (fuel : Nat) (src : Snippet) (snippet : RenderedSnippet)
    (ctx : RenderCtx) (pos : Nat) : Option (RenderedSnippet × String × Nat) :=
  match renderList fuel src ctx src.elements ⟨snippet, "", pos⟩ with
  | some st =>
    some ({ st.dst with ranges := st.dst.ranges ++ [⟨pos, st.off⟩] },
      st.text, st.off - pos)
  | none => none

/-! ## helix-core/src/snippets/active.rs -/

/-- `movement::Direction` (external to the snippet core). -/
inductive Direction where
  | Forward
  | Backward
deriving DecidableEq, Repr

/-- Modelled from the spec: `selection::Range` of the external selection
abstraction (§6) — an anchor/head pair. -/
structure SRange where
  anchor : Nat
  head : Nat
deriving DecidableEq, Repr

/-- `selection::Range::flip`: swap anchor and head. -/
def SRange.flip (r : SRange) : SRange :=
  ⟨r.head, r.anchor⟩

/-- Modelled from the spec: conversion of a selection range into a
start/end character range (`Range::from` on a `selection::Range`). -/
def SRange.toRange (r : SRange) : Range :=
  ⟨min r.anchor r.head, max r.anchor r.head⟩

/-- Modelled from the spec: the external selection abstraction (§6) — an
ordered sequence of ranges with one designated primary. -/
structure Selection where
  ranges : List SRange
  primaryIndex : Nat
deriving DecidableEq, Repr

/-- Modelled from the spec: the directional bias (`Assoc`) with which a
position is remapped through an edit — stay before or move after text
inserted exactly at that position (spec §6 and glossary "Gravity/bias"). -/
inductive Assoc where
  | Before
  | After
deriving DecidableEq, Repr

/-- Modelled from the spec: the edit-batch abstraction (`ChangeSet`, §6),
restricted to a single text insertion of `insLen` characters at `insAt`. -/
structure ChangeSet where
  insAt : Nat
  insLen : Nat
deriving DecidableEq, Repr

/-- Modelled from the spec: remapping one position through the insertion.
Positions before the insertion point are unchanged, positions after it are
shifted by the inserted length, and a position exactly at it stays before
the inserted text under `Assoc::Before` and moves after it under
`Assoc::After`. -/
def ChangeSet.mapPos (cs : ChangeSet) (pos : Nat) (assoc : Assoc) : Nat :=
  if pos < cs.insAt then pos
  else if cs.insAt < pos then pos + cs.insLen
  else
    match assoc with
    | .Before => pos
    | .After => pos + cs.insLen

/-- `ActiveSnippet` (active.rs): the live session state. -/
structure ActiveSnippet where
  ranges : List Range
  activeTabstops : List Nat
  activeTabstop : Nat
  tabstops : List RTabstop
deriving DecidableEq, Repr

/-- The `while let Some(tabstop) = parent` ancestor walk of
`activate_tabstop`, with fuel (the Rust loop diverges on a cyclic parent
chain and panics on an out-of-bounds parent index, both modelled as
`none`). -/
def ancestorList (ts : List RTabstop) : Nat → Nat → Option (List Nat)
  | 0, _ => none
  | fuel + 1, i =>
    match ts.get? i with
    | none => none
    | some t =>
      match t.parent with
      | none => some []
      | some p =>
        match ancestorList ts fuel p with
        | some l => some (p :: l)
        | none => none

/-- Outcome of `ActiveSnippet::activate_tabstop` (active.rs): Rust's `None`
(a vacuous placeholder) is distinguished from a panic. -/
inductive ActResult where
  | panic
  | vacuous
  | ok (s : ActiveSnippet) (sel : Selection)

/-- `ActiveSnippet::activate_tabstop` (active.rs): refuse a tabstop with
placeholder/choice semantics whose current ranges are all empty; otherwise
replace the active set with the target and its ancestors and build the
selection from the target's ranges (flipped when navigating backward), with
primary index `primary_idx * (ranges.len() / self.ranges.len())`. -/
def activateTabstop (s : ActiveSnippet) (primaryIdx : Nat) (dir : Direction) :
    ActResult :=
  match s.tabstops.get? s.activeTabstop with
  | none => .panic
  | some tabstop =>
    if tabstop.hasPlaceholder ∧ tabstop.ranges.all Range.isEmptyR then
      .vacuous
    else
      match ancestorList s.tabstops (s.tabstops.length + 1) s.activeTabstop with
      | none => .panic
      | some anc =>
        if s.ranges.length = 0 then .panic
        else
          .ok { s with activeTabstops := s.activeTabstop :: anc }
            ⟨tabstop.ranges.map fun r =>
                if dir = .Backward then SRange.flip ⟨r.start, r.«end»⟩
                else ⟨r.start, r.«end»⟩,
              primaryIdx * (tabstop.ranges.length / s.ranges.length)⟩

/-- The `iter().position(...)` search over the top-level insertion ranges. -/
def positionContains : List Range → Range → Option Nat
  | [], _ => none
  | r :: rest, pr =>
    if r.contains pr then some 0
    else (positionContains rest pr).map (· + 1)

/-- `ActiveSnippet::primary_idx` (active.rs): the index of the top-level
insertion range containing the selection's primary range; `none` models the
`expect("active snippet must be valid")` panic. -/
def primaryIdxOf (s : ActiveSnippet) (sel : Selection) : Option Nat :=
  match sel.ranges.get? sel.primaryIndex with
  | none => none
  | some pr => positionContains s.ranges pr.toRange

/-- The scan loop of `ActiveSnippet::next_tabstop` (active.rs): increment the
active index while it can, skipping vacuous tabstops; on success return the
new state, the selection, and the completion flag
`active_tabstop + 1 == tabstops.len()`.  The state is returned even when the
scan is exhausted, since Rust mutates `self.active_tabstop` in place. -/
def nextGo : Nat → ActiveSnippet → Nat →
    Option (ActiveSnippet × Option (Selection × Bool))
  | 0, _, _ => none
  | fuel + 1, s, primaryIdx =>
    if s.activeTabstop + 1 < s.tabstops.length then
      let s1 := { s with activeTabstop := s.activeTabstop + 1 }
      match activateTabstop s1 primaryIdx .Forward with
      | .panic => none
      | .vacuous => nextGo fuel s1 primaryIdx
      | .ok s2 sel =>
        some (s2, some (sel, decide (s2.activeTabstop + 1 = s2.tabstops.length)))
    else
      some (s, none)

/-- `ActiveSnippet::next_tabstop` (active.rs). -/
def ActiveSnippet.nextTabstop (fuel : Nat) (s : ActiveSnippet)
    (currentSelection : Selection) :
    Option (ActiveSnippet × Option (Selection × Bool)) :=
  match primaryIdxOf s currentSelection with
  | none => none
  | some pi => nextGo fuel s pi

/-- The scan loop of `ActiveSnippet::prev_tabstop` (active.rs): decrement the
active index while it is non-zero, skipping vacuous tabstops; no completion
flag is produced. -/
def prevGo : Nat → ActiveSnippet → Nat →
    Option (ActiveSnippet × Option Selection)
  | 0, _, _ => none
  | fuel + 1, s, primaryIdx =>
    if s.activeTabstop ≠ 0 then
      let s1 := { s with activeTabstop := s.activeTabstop - 1 }
      match activateTabstop s1 primaryIdx .Backward with
      | .panic => none
      | .vacuous => prevGo fuel s1 primaryIdx
      | .ok s2 sel => some (s2, some sel)
    else
      some (s, none)

/-- `ActiveSnippet::prev_tabstop` (active.rs). -/
def ActiveSnippet.prevTabstop (fuel : Nat) (s : ActiveSnippet)
    (currentSelection : Selection) :
    Option (ActiveSnippet × Option Selection) :=
  match primaryIdxOf s currentSelection with
  | none => none
  | some pi => prevGo fuel s pi

/-- `ActiveSnippet::new` (active.rs): build the session with active tabstop
index 0, activate it (the `expect` panic is modelled as `none`), and return
the session only when the snippet has more than one tabstop. -/
def ActiveSnippet.new (primaryIdx : Nat) (dir : Direction)
    (snippet : RenderedSnippet) : Option (Option ActiveSnippet × Selection) :=
  let s : ActiveSnippet :=
    { ranges := snippet.ranges,
      activeTabstops := [],
      activeTabstop := 0,
      tabstops := snippet.tabstops }
  match activateTabstop s primaryIdx dir with
  | .ok s2 sel =>
    some (if s2.tabstops.length ≠ 1 then some s2 else none, sel)
  | _ => none

/-- Remapping of a top-level insertion range in `ActiveSnippet::map`
(active.rs): start with `Assoc::After`, end with `Assoc::Before`. -/
def mapRangeTop (cs : ChangeSet) (r : Range) : Range :=
  ⟨cs.mapPos r.start .After, cs.mapPos r.«end» .Before⟩

/-- Remapping of an active-set tabstop range in `ActiveSnippet::map`
(active.rs): start with `Assoc::Before`; end with `Assoc::Before` when the
range is empty and `Assoc::After` otherwise. -/
def mapRangeActive (cs : ChangeSet) (r : Range) : Range :=
  let endAssoc : Assoc := if r.start = r.«end» then .Before else .After
  ⟨cs.mapPos r.start .Before, cs.mapPos r.«end» endAssoc⟩

/-- Remapping of a non-active tabstop range in `ActiveSnippet::map`
(active.rs): start with `Assoc::After`; end with `Assoc::After` when the
range is empty and `Assoc::Before` otherwise. -/
def mapRangeInactive (cs : ChangeSet) (r : Range) : Range :=
  let endAssoc : Assoc := if r.start = r.«end» then .After else .Before
  ⟨cs.mapPos r.start .After, cs.mapPos r.«end» endAssoc⟩

/-- The `retain_mut` clamp-and-repair loop of `ActiveSnippet::map`
(active.rs): walk a tabstop's remapped ranges in groups of `num_ranges` per
top-level insertion range, drop ranges whose owning insertion range is
inverted, clamp the rest into it, and force a start that fell before the
previous range's end forward.  `none` models the `unwrap` panic on an
exhausted insertion-range iterator. -/
def retainRanges : List Range → List Range → Range → Nat → Nat → Range →
    Option (List Range)
  | [], _, _, _, _, _ => some []
  | r :: rest, srs, sr, ti, nr, prev =>
    let step : Option (List Range × Range × Nat) :=
      if ti = nr then
        match srs with
        | [] => none
        | sr2 :: srs2 => some (srs2, sr2, 0)
      else
        some (srs, sr, ti)
    match step with
    | none => none
    | some (srs1, sr1, ti1) =>
      if sr1.start ≤ sr1.«end» then
        let start1 := max r.start sr1.start
        let end1 := min (max r.«end» start1) sr1.«end»
        let newR : Range :=
          if start1 < prev.«end» then ⟨prev.«end», max end1 prev.«end»⟩
          else ⟨start1, end1⟩
        match retainRanges rest srs1 sr1 (ti1 + 1) nr newR with
        | some l => some (newR :: l)
        | none => none
      else
        retainRanges rest srs1 sr1 (ti1 + 1) nr prev

/-- Remap and clamp all ranges of one tabstop in `ActiveSnippet::map`,
using the already-remapped top-level ranges. -/
def mapTabstop (cs : ChangeSet) (active : Bool) (topRanges : List Range)
    (t : RTabstop) : Option RTabstop :=
  let mapped :=
    t.ranges.map (if active then mapRangeActive cs else mapRangeInactive cs)
  match topRanges with
  | [] => none
  | sr :: srs =>
    let nr := mapped.length / topRanges.length
    match retainRanges mapped srs sr 0 nr ⟨0, 0⟩ with
    | some rs => some { t with ranges := rs }
    | none => none

/-- `ActiveSnippet::map` (active.rs): remap the top-level insertion ranges
(outward bias), then every tabstop's ranges (inward bias for the active set,
outward otherwise), then clamp and repair. -/
def ActiveSnippet.map (s : ActiveSnippet) (cs : ChangeSet) :
    Option ActiveSnippet :=
  let newTop := s.ranges.map (mapRangeTop cs)
  match
    (s.tabstops.enum.mapM fun p =>
      mapTabstop cs (s.activeTabstops.contains p.1) newTop p.2)
  with
  | some ts => some { s with ranges := newTop, tabstops := ts }
  | none => none

/-- `ActiveSnippet::insert_snippet» (active.rs): shift the inserted
snippet's internal parent links by the active index, re-parent its top-level
tabstops to the active tabstop's parent, and `splice` the result over the
inclusive range `active_tabstop..=active_tabstop` of the session table
(which removes the active tabstop's record). -/
def ActiveSnippet.insertSnippet (s : ActiveSnippet)
    (snippet : RenderedSnippet) : Option ActiveSnippet :=
  match s.tabstops.get? s.activeTabstop with
  | none => none
  | some cur =>
    let newTs := snippet.tabstops.map fun t =>
      match t.parent with
      | some p => { t with parent := some (p + s.activeTabstop) }
      | none => { t with parent := cur.parent }
    some { s with
      tabstops :=
        s.tabstops.take s.activeTabstop ++ newTs ++
          s.tabstops.drop (s.activeTabstop + 1) }

/-! ## Predicates and iteration helpers used by the claim statements -/

mutual
/-- All tabstop references of an element are valid positions below `n`. -/
def SnippetElement.refsBelow : SnippetElement → Nat → Bool
  | .Tabstop i, n => decide (i < n)
  | .Variable _ none _, _ => true
  | .Variable _ (some d) _, n => d.refsBelow n
  | .Text _, _ => true

/-- All tabstop references of an element sequence are below `n`. -/
def SElementList.refsBelow : SElementList → Nat → Bool
  | .nil, _ => true
  | .cons e t, n => e.refsBelow n && t.refsBelow n
end

/-- The singleton or empty list of an optional parent index. -/
def optList : Option Nat → List Nat
  | none => []
  | some p => [p]

mutual
/-- The raw tabstop indices referenced by an element (recursively, including
variable defaults). -/
def SnippetElement.refs : SnippetElement → List Nat
  | .Tabstop i => [i]
  | .Variable _ none _ => []
  | .Variable _ (some d) _ => d.refs
  | .Text _ => []

/-- The raw tabstop indices referenced by an element sequence. -/
def SElementList.refs : SElementList → List Nat
  | .nil => []
  | .cons e t => e.refs ++ t.refs
end

/-- The indices referenced by a table record: its parent link and the
references inside its placeholder default. -/
def Tabstop.refs (t : Tabstop) : List Nat :=
  optList t.parent ++
  (match t.kind with
   | .Placeholder d => d.refs
   | _ => [])

/-- A table record's references are all valid positions below `n`. -/
def Tabstop.refsBelow (t : Tabstop) (n : Nat) : Bool :=
  (match t.parent with
   | some p => decide (p < n)
   | none => true) &&
  (match t.kind with
   | .Placeholder d => d.refsBelow n
   | _ => true)

/-- The last element of an element sequence. -/
def SElementList.getLast? : SElementList → Option SnippetElement
  | .nil => none
  | .cons e .nil => some e
  | .cons _ (.cons e t) => SElementList.getLast? (.cons e t)

/-- A tabstop the navigation scan can activate: it exists and is not a
placeholder/choice whose current ranges are all empty (the refusal condition
of `activate_tabstop`). -/
def nonVacuous (ts : List RTabstop) (i : Nat) : Bool :=
  match ts.get? i with
  | some t => !(t.hasPlaceholder && t.ranges.all Range.isEmptyR)
  | none => false

/-- Repeated `next_tabstop` calls, collecting the visited resolved index and
completion flag of each successful activation, feeding each returned
selection into the next call, until the scan is exhausted.  `none` models a
panic or fuel exhaustion. -/
def visitsNext : Nat → ActiveSnippet → Selection → Option (List (Nat × Bool))
  | 0, _, _ => none
  | fuel + 1, s, sel =>
    match s.nextTabstop (s.tabstops.length + 1) sel with
    | none => none
    | some (_, none) => some []
    | some (s1, some (sel1, flag)) =>
      match visitsNext fuel s1 sel1 with
      | some l => some ((s1.activeTabstop, flag) :: l)
      | none => none

/-- Repeated `prev_tabstop` calls, collecting the visited resolved indices. -/
def visitsPrev : Nat → ActiveSnippet → Selection → Option (List Nat)
  | 0, _, _ => none
  | fuel + 1, s, sel =>
    match s.prevTabstop (s.tabstops.length + 1) sel with
    | none => none
    | some (_, none) => some []
    | some (s1, some sel1) =>
      match visitsPrev fuel s1 sel1 with
      | some l => some (s1.activeTabstop :: l)
      | none => none

/-- The indices the forward scan visits from active index `a`: every
non-vacuous index strictly above `a`, in ascending order, paired with the
completion flag `i + 1 = len`. -/
def expectedNext (ts : List RTabstop) (a : Nat) : List (Nat × Bool) :=
  ((List.range ts.length).filter fun i => decide (a < i) && nonVacuous ts i).map
    fun i => (i, decide (i + 1 = ts.length))

/-- The indices the backward scan visits from active index `a`: every
non-vacuous index strictly below `a`, in descending order. -/
def expectedPrev (ts : List RTabstop) (a : Nat) : List Nat :=
  ((List.range a).filter (nonVacuous ts)).reverse

/-- Parent links of all tabstops form finite chains of valid indices
(the Rust ancestor walk neither panics nor diverges). -/
def ParentsWF (ts : List RTabstop) : Prop :=
  ∀ i < ts.length, (ancestorList ts (ts.length + 1) i).isSome

/-- Session hypotheses under which navigation cannot panic: a single
top-level insertion range, every tabstop having at least one range, all
tabstop ranges contained in it, and well-formed parent links. -/
def NavWF (s : ActiveSnippet) (R : Range) : Prop :=
  s.ranges = [R] ∧
  (∀ t ∈ s.tabstops, t.ranges ≠ [] ∧
    ∀ r ∈ t.ranges, R.contains ⟨min r.start r.«end», max r.start r.«end»⟩ = true) ∧
  ParentsWF s.tabstops

/-! ## Concrete instances used by the claims -/

/-- Build a `PElementList` from a Lean list. -/
def listP (l : List PElement) : PElementList :=
  l.foldr .cons .nil

/-- A regex compiler accepting every pattern (any concrete well-formed
pattern such as `"a"` compiles under the external `regex` crate). -/
def alwaysBuilds : String → Bool := fun _ => true

/-- Render context of the claims' scenarios: newline replacement `"\t\n"`,
a variable resolver that always returns none, and an irrelevant transform
applier. -/
def noVarCtx : RenderCtx :=
  ⟨"\t\n", fun _ => none, fun _ s => s⟩

/-- The raw template tree of
`"macro_rules! ${1:name} {\n    ($3) => {\n        $2\n    };\n}"`
per the grammar contract (§6). -/
def rustMacroTemplate : PElementList :=
  listP
    [.Text "macro_rules! ",
     .Placeholder 1 (listP [.Text "name"]),
     .Text " \x7b\n    (",
     .Tabstop 3 none,
     .Text ") => \x7b\n        ",
     .Tabstop 2 none,
     .Text "\n    \x7d;\n\x7d"]

/-- Full elaborate-and-render pipeline of the C1 scenario. -/
def c1Run : Option (RenderedSnippet × String × Nat) :=
  match Snippet.new alwaysBuilds rustMacroTemplate with
  | some s => s.renderAt 1000 s.prepareRender noVarCtx 0
  | none => none

/-- The raw template tree of `"a$1$1b"`. -/
def dupTemplate : PElementList :=
  listP [.Text "a", .Tabstop 1 none, .Tabstop 1 none, .Text "b"]

/-- The raw template tree of `"a$1${1:x}b"`. -/
def dupPlaceholderTemplate : PElementList :=
  listP [.Text "a", .Tabstop 1 none, .Placeholder 1 (listP [.Text "x"]), .Text "b"]

/-- Pipeline run of `"a$1$1b"`. -/
def dupRun : Option (RenderedSnippet × String × Nat) :=
  match Snippet.new alwaysBuilds dupTemplate with
  | some s => s.renderAt 1000 s.prepareRender noVarCtx 0
  | none => none

/-- Pipeline run of `"a$1${1:x}b"`. -/
def dupPlaceholderRun : Option (RenderedSnippet × String × Nat) :=
  match Snippet.new alwaysBuilds dupPlaceholderTemplate with
  | some s => s.renderAt 1000 s.prepareRender noVarCtx 0
  | none => none

/-- The raw template tree of `"${1:$2}"`: a placeholder whose default
renders to zero-length text. -/
def emptyDefaultTemplate : PElementList :=
  listP [.Placeholder 1 (listP [.Tabstop 2 none])]

/-- Pipeline run of `"${1:$2}"`. -/
def emptyDefaultRun : Option (RenderedSnippet × String × Nat) :=
  match Snippet.new alwaysBuilds emptyDefaultTemplate with
  | some s => s.renderAt 1000 s.prepareRender noVarCtx 0
  | none => none

/-- A session whose active tabstop 0 currently has the single empty range
`[5,5)` and whose tabstop 1 is inactive with range `[10,12)`. -/
def mapSessionA : ActiveSnippet :=
  { ranges := [⟨0, 20⟩],
    activeTabstops := [0],
    activeTabstop := 0,
    tabstops :=
      [⟨[⟨5, 5⟩], none, .Empty⟩,
       ⟨[⟨10, 12⟩], none, .Empty⟩] }

/-- A session whose active tabstop 0 currently has the non-empty range
`[5,8)`. -/
def mapSessionB : ActiveSnippet :=
  { ranges := [⟨0, 20⟩],
    activeTabstops := [0],
    activeTabstop := 0,
    tabstops := [⟨[⟨5, 8⟩], none, .Empty⟩] }

/-- A live session used by the C5 scenario: two tabstops, the active one
(index 1) having parent 0. -/
def spliceSession : ActiveSnippet :=
  { ranges := [⟨0, 10⟩],
    activeTabstops := [1],
    activeTabstop := 1,
    tabstops :=
      [⟨[⟨0, 4⟩], none, .Empty⟩,
       ⟨[⟨1, 3⟩], some 0, .Empty⟩] }

/-- A freshly rendered snippet spliced into `spliceSession`: one top-level
tabstop (no parent) and one internal tabstop with parent 0. -/
def spliceInserted : RenderedSnippet :=
  { tabstops :=
      [⟨[⟨1, 2⟩], none, .Empty⟩,
       ⟨[⟨1, 1⟩], some 0, .Empty⟩],
    ranges := [⟨1, 3⟩] }

/-- A rendered snippet whose tabstop 0 is a placeholder with one empty
range (produced e.g. by rendering the template `"${0:$1}"`). -/
def vacuousZeroSnippet : RenderedSnippet :=
  { tabstops := [⟨[⟨0, 0⟩], none, .Placeholder⟩],
    ranges := [⟨0, 0⟩] }

/-- A four-tabstop session (all tabstops activatable) in its initial state
(active index 0), used for the navigation claims. -/
def navSession : ActiveSnippet :=
  { ranges := [⟨0, 12⟩],
    activeTabstops := [0],
    activeTabstop := 0,
    tabstops :=
      [⟨[⟨9, 9⟩], none, .Empty⟩,
       ⟨[⟨2, 4⟩], none, .Placeholder⟩,
       ⟨[⟨5, 5⟩], none, .Empty⟩,
       ⟨[⟨7, 8⟩], none, .Empty⟩] }

/-- A selection sitting inside `navSession`'s top-level range. -/
def navSelection : Selection :=
  ⟨[⟨9, 9⟩], 0⟩

/-- The selection's primary range exists and is contained in the top-level
range `R` — the condition under which `primary_idx` finds insertion range 0
in a single-insertion session. -/
def SelOK (R : Range) (sel : Selection) : Prop :=
  match sel.ranges.get? sel.primaryIndex with
  | some pr => R.contains pr.toRange = true
  | none => False

/-- A two-tabstop rendered snippet whose tabstop 0 is activatable, used to
witness the amended C10 claim. -/
def c10Snippet : RenderedSnippet :=
  { tabstops :=
      [⟨[⟨0, 0⟩], none, .Empty⟩,
       ⟨[⟨1, 2⟩], none, .Empty⟩],
    ranges := [⟨0, 2⟩] }

/-- The elaborated snippet of `"${1:$2}"`, extracted with a default so the
definition stays a total function. -/
def c8Snippet : Snippet :=
  (Snippet.new alwaysBuilds emptyDefaultTemplate).getD ⟨.nil, []⟩

/-- The state reached by rendering tabstop 1 of `c8Snippet` from a fresh
prepared state. -/
def c8St2 : RState :=
  (renderTabstop 1000 c8Snippet noVarCtx 1 ⟨c8Snippet.prepareRender, "", 0⟩).getD
    ⟨⟨[], []⟩, "", 0⟩

/-! ## Theorems: is_subset vs the naive containment check (C7 machinery) -/

theorem sortedDisjoint_cons {r : Range} {l : List Range}
    (h : SortedDisjoint (r :: l)) : SortedDisjoint l :=
  List.Chain'.tail h

theorem allNonEmpty_cons {r : Range} {l : List Range}
    (h : AllNonEmpty (r :: l)) : AllNonEmpty l :=
  fun x hx => h x (List.mem_cons_of_mem r hx)

/-- In a sorted-disjoint list of non-empty ranges, every member starts at
or after the head's start. -/
theorem start_mono {r : Range} {l : List Range}
    (hs : SortedDisjoint (r :: l)) (hne : AllNonEmpty (r :: l)) :
    ∀ r' ∈ r :: l, r.start ≤ r'.start := by
  induction l generalizing r with
  | nil =>
    intro r' hr'
    simp only [List.mem_singleton] at hr'
    exact hr' ▸ le_refl _
  | cons b t ih =>
    intro r' hr'
    rcases List.mem_cons.1 hr' with h | h
    · exact h ▸ le_refl _
    · have hrb : r.«end» ≤ b.start := (List.chain'_cons.1 hs).1
      have hr : r.start < r.«end» := hne r (List.mem_cons_self r _)
      have hb : b.start ≤ r'.start :=
        ih (List.chain'_cons.1 hs).2 (allNonEmpty_cons hne) r' h
      omega

/-- In a sorted-disjoint list of non-empty ranges, every member of the tail
starts at or after the head's end. -/
theorem end_le_tail_start {r : Range} {l : List Range}
    (hs : SortedDisjoint (r :: l)) (hne : AllNonEmpty (r :: l)) :
    ∀ r' ∈ l, r.«end» ≤ r'.start := by
  intro r' hr'
  cases l with
  | nil => cases hr'
  | cons b t =>
    have hrb : r.«end» ≤ b.start := (List.chain'_cons.1 hs).1
    have hb : b.start ≤ r'.start :=
      start_mono (List.chain'_cons.1 hs).2 (allNonEmpty_cons hne) r' hr'
    omega

/-- If the skip guard fires on `ra` then `ra` contains no member of the
(non-empty, sorted) sub list. -/
theorem skip_sound {ra rb : Range} {sub : List Range}
    (hguard : ra.«end» ≤ rb.start)
    (hs : SortedDisjoint (rb :: sub)) (hne : AllNonEmpty (rb :: sub)) :
    ∀ rb' ∈ rb :: sub, ra.contains rb' = false := by
  intro rb' hrb'
  have h1 : rb.start ≤ rb'.start := start_mono hs hne rb' hrb'
  have h2 : rb'.start < rb'.«end» := hne rb' hrb'
  simp only [Range.contains, Bool.and_eq_false_iff, decide_eq_false_iff_not, not_le]
  omega

theorem isSubsetNaive_cons_sup {ra : Range} {sup sub : List Range}
    (h : ∀ rb ∈ sub, ra.contains rb = false) :
    isSubsetNaive (ra :: sup) sub = isSubsetNaive sup sub := by
  induction sub with
  | nil => rfl
  | cons rb t ih =>
    have ht : isSubsetNaive (ra :: sup) t = isSubsetNaive sup t :=
      ih fun x hx => h x (List.mem_cons_of_mem rb hx)
    simp only [isSubsetNaive, List.all_cons, List.any_cons] at ht ⊢
    rw [h rb (List.mem_cons_self rb t), Bool.false_or, ht]

/-- Main equivalence: for sorted, pairwise non-overlapping sequences of
non-empty ranges, the two-pointer `is_subset` agrees with the naive
all-pairs containment check. -/
theorem isSubset_eq_naive :
    ∀ (sup sub : List Range), SortedDisjoint sup → SortedDisjoint sub →
      AllNonEmpty sup → AllNonEmpty sub →
      isSubset sup sub = isSubsetNaive sup sub
  | ra :: sup, rb :: sub, hs1, hs2, hn1, hn2 => by
    rw [isSubset]
    by_cases hguard : ra.«end» ≤ rb.start ∧ ra.start < rb.start
    · rw [if_pos hguard]
      rw [isSubset_eq_naive sup (rb :: sub) (sortedDisjoint_cons hs1) hs2
        (allNonEmpty_cons hn1) hn2]
      exact (isSubsetNaive_cons_sup (fun rb' h => skip_sound hguard.1 hs2 hn2 rb' h)).symm
    · rw [if_neg hguard]
      by_cases hcont : ra.contains rb = true
      · rw [if_pos hcont]
        rw [isSubset_eq_naive (ra :: sup) sub hs1 (sortedDisjoint_cons hs2) hn1
          (allNonEmpty_cons hn2)]
        simp only [isSubsetNaive, List.all_cons, List.any_cons, hcont, Bool.true_or,
          Bool.true_and]
      · rw [if_neg hcont]
        have hnone : ∀ ra' ∈ ra :: sup, ra'.contains rb = false := by
          intro ra' hra'
          rcases List.mem_cons.1 hra' with h | h
          · subst h
            exact Bool.eq_false_iff.2 hcont
          · by_contra hc
            have hc' : ra'.contains rb = true := by
              cases h' : ra'.contains rb
              · exact absurd h' hc
              · rfl
            have h1 : ra'.start ≤ rb.start := by
              simp only [Range.contains, Bool.and_eq_true, decide_eq_true_eq] at hc'
              exact hc'.1
            have h2 : ra.«end» ≤ ra'.start := end_le_tail_start hs1 hn1 ra' h
            have h3 : ra.start < ra.«end» := hn1 ra (List.mem_cons_self ra _)
            have h4 : ¬(ra.«end» ≤ rb.start ∧ ra.start < rb.start) := hguard
            omega
        symm
        simp only [isSubsetNaive, List.all_cons, Bool.and_eq_false_iff]
        left
        simp only [List.any_eq_false]
        intro ra' hra'
        exact Bool.eq_false_iff.1 (hnone ra' hra')
  | [], rb :: sub, _, _, _, _ => by
    rw [isSubset]
    simp [isSubsetNaive]
  | sup, [], _, _, _, _ => by
    cases sup <;> simp [isSubset, isSubsetNaive]
termination_by sup sub => sup.length + sub.length
decreasing_by
  all_goals simp_arith [List.length]

/-! ## Elaboration invariants (C2 machinery) -/

theorem mem_idx_append {r : Nat} {t1 t2 : List Tabstop} :
    r ∈ (t1 ++ t2).map Tabstop.idx ↔
      r ∈ t1.map Tabstop.idx ∨ r ∈ t2.map Tabstop.idx := by
  rw [List.map_append, List.mem_append]

/-- Destructuring of a table record's reference list. -/
theorem tabstop_refs_cases {t : Tabstop} {r : Nat} (h : r ∈ t.refs) :
    t.parent = some r ∨ ∃ d, t.kind = .Placeholder d ∧ r ∈ d.refs := by
  unfold Tabstop.refs at h
  rcases List.mem_append.1 h with h | h
  · cases hp : t.parent with
    | none => rw [hp] at h; cases h
    | some p =>
      rw [hp] at h
      simp [optList] at h
      exact Or.inl (congrArg some h.symm)
  · cases hk : t.kind with
    | Placeholder d =>
      rw [hk] at h
      exact Or.inr ⟨d, rfl, h⟩
    | Choice cs => rw [hk] at h; cases h
    | Empty => rw [hk] at h; cases h
    | Transform tr => rw [hk] at h; cases h

/-- A record whose kind is not a placeholder only references its parent. -/
theorem refs_no_placeholder {n : Nat} {parent : Option Nat} {k : TabstopKind}
    (hk : ∀ d, k ≠ .Placeholder d) :
    Tabstop.refs ⟨n, parent, k⟩ = optList parent := by
  unfold Tabstop.refs
  cases k with
  | Placeholder d => exact absurd rfl (hk d)
  | Choice cs => simp
  | Empty => simp
  | Transform tr => simp

theorem refs_placeholder {n : Nat} {parent : Option Nat} {d : SElementList} :
    Tabstop.refs ⟨n, parent, .Placeholder d⟩ = optList parent ++ d.refs :=
  rfl

/-- Closure property of one elaboration step: the element references are
indices of pushed records, and every pushed record references only the
supplied parent or pushed records. -/
def ElabClosed (parent : Option Nat) (els : List Nat) (ts : List Tabstop) : Prop :=
  (∀ r ∈ els, r ∈ ts.map Tabstop.idx) ∧
  (∀ t ∈ ts, ∀ r ∈ t.refs, r ∈ optList parent ∨ r ∈ ts.map Tabstop.idx)

theorem elabClosed_merge {parent : Option Nat} {e1 e2 : List Nat}
    {t1 t2 : List Tabstop}
    (h1 : ElabClosed parent e1 t1) (h2 : ElabClosed parent e2 t2) :
    ElabClosed parent (e1 ++ e2) (t1 ++ t2) := by
  constructor
  · intro r hr
    rcases List.mem_append.1 hr with h | h
    · exact mem_idx_append.2 (Or.inl (h1.1 r h))
    · exact mem_idx_append.2 (Or.inr (h2.1 r h))
  · intro t ht r hr
    rcases List.mem_append.1 ht with h | h
    · rcases h1.2 t h r hr with h' | h'
      · exact Or.inl h'
      · exact Or.inr (mem_idx_append.2 (Or.inl h'))
    · rcases h2.2 t h r hr with h' | h'
      · exact Or.inl h'
      · exact Or.inr (mem_idx_append.2 (Or.inr h'))

mutual
/-- Every reference produced by elaborating one raw element points at a
record pushed alongside it, and every pushed record's references (parent
link and placeholder-default references) point at the supplied parent or at
pushed records. -/
theorem elabElem_closed (buildOk : String → Bool) (parent : Option Nat) :
    ∀ e : PElement,
      ElabClosed parent (elaborateElem buildOk parent e).1.refs
        (elaborateElem buildOk parent e).2
  | .Text s => by
    constructor
    · intro r hr
      simp [elaborateElem, SnippetElement.refs] at hr
    · intro t ht
      simp [elaborateElem] at ht
  | .Tabstop n none => by
    constructor
    · intro r hr
      simp only [elaborateElem, SnippetElement.refs, List.mem_singleton] at hr
      subst hr
      simp [elaborateElem]
    · intro t ht r hr
      simp only [elaborateElem, List.mem_singleton] at ht
      subst ht
      rw [refs_placeholder] at hr
      rcases List.mem_append.1 hr with h | h
      · exact Or.inl h
      · simp [SElementList.refs] at h
  | .Tabstop n (some tr) => by
    constructor
    · intro r hr
      simp only [elaborateElem, SnippetElement.refs, List.mem_singleton] at hr
      subst hr
      cases h : Transform.new buildOk tr <;> simp [elaborateElem, h]
    · intro t ht r hr
      cases h : Transform.new buildOk tr with
      | none =>
        simp only [elaborateElem, h, List.mem_singleton] at ht
        subst ht
        rw [refs_no_placeholder (by intro d hd; cases hd)] at hr
        exact Or.inl hr
      | some tt =>
        simp only [elaborateElem, h, List.mem_singleton] at ht
        subst ht
        rw [refs_no_placeholder (by intro d hd; cases hd)] at hr
        exact Or.inl hr
  | .Choice n choices => by
    constructor
    · intro r hr
      simp only [elaborateElem, SnippetElement.refs, List.mem_singleton] at hr
      subst hr
      simp [elaborateElem]
    · intro t ht r hr
      simp only [elaborateElem, List.mem_singleton] at ht
      subst ht
      rw [refs_no_placeholder (by intro d hd; cases hd)] at hr
      exact Or.inl hr
  | .Placeholder n value => by
    have IH := elabList_closed buildOk (some n) value
    rcases hE : elaborateList buildOk (some n) value with ⟨d, ts⟩
    rw [hE] at IH
    have hout2 : (elaborateElem buildOk parent (.Placeholder n value)).2 =
        ts ++ [⟨n, parent, .Placeholder d⟩] := by
      simp [elaborateElem, hE]
    have hout1 : (elaborateElem buildOk parent (.Placeholder n value)).1 =
        .Tabstop n := by
      simp [elaborateElem, hE]
    have hn' : n ∈ ([(⟨n, parent, .Placeholder d⟩ : Tabstop)].map Tabstop.idx) := by
      simp
    have hn : n ∈ ((ts ++ [(⟨n, parent, .Placeholder d⟩ : Tabstop)]).map Tabstop.idx) :=
      mem_idx_append.2 (Or.inr hn')
    constructor
    · intro r hr
      rw [hout1] at hr
      simp only [SnippetElement.refs, List.mem_singleton] at hr
      subst hr
      rw [hout2]
      exact hn
    · intro t ht r hr
      rw [hout2] at ht ⊢
      rcases List.mem_append.1 ht with h | h
      · rcases IH.2 t h r hr with h' | h'
        · simp [optList] at h'
          subst h'
          exact Or.inr hn
        · exact Or.inr (mem_idx_append.2 (Or.inl h'))
      · simp only [List.mem_singleton] at h
        subst h
        rw [refs_placeholder] at hr
        rcases List.mem_append.1 hr with h | h
        · exact Or.inl h
        · exact Or.inr (mem_idx_append.2 (Or.inl (IH.1 r h)))
  | .Variable name none tr => by
    constructor
    · intro r hr
      simp [elaborateElem, SnippetElement.refs] at hr
    · intro t ht
      simp [elaborateElem] at ht
  | .Variable name (some dflt) tr => by
    have IH := elabList_closed buildOk parent dflt
    rcases hE : elaborateList buildOk parent dflt with ⟨d, ts⟩
    rw [hE] at IH
    have hout2 : (elaborateElem buildOk parent (.Variable name (some dflt) tr)).2 =
        ts := by
      simp [elaborateElem, hE]
    have hout1 : (elaborateElem buildOk parent (.Variable name (some dflt) tr)).1 =
        .Variable name (some d) (tr.bind (Transform.new buildOk)) := by
      simp [elaborateElem, hE]
    constructor
    · intro r hr
      rw [hout1] at hr
      simp only [SnippetElement.refs] at hr
      rw [hout2]
      exact IH.1 r hr
    · intro t ht r hr
      rw [hout2] at ht ⊢
      exact IH.2 t ht r hr

/-- List version of `elabElem_closed`. -/
theorem elabList_closed (buildOk : String → Bool) (parent : Option Nat) :
    ∀ l : PElementList,
      ElabClosed parent (elaborateList buildOk parent l).1.refs
        (elaborateList buildOk parent l).2
  | .nil => by
    constructor
    · intro r hr
      simp [elaborateList, SElementList.refs] at hr
    · intro t ht
      simp [elaborateList] at ht
  | .cons e rest => by
    have IH1 := elabElem_closed buildOk parent e
    have IH2 := elabList_closed buildOk parent rest
    rcases h1 : elaborateElem buildOk parent e with ⟨s1, t1⟩
    rcases h2 : elaborateList buildOk parent rest with ⟨s2, t2⟩
    rw [h1] at IH1
    rw [h2] at IH2
    have hout1 : (elaborateList buildOk parent (.cons e rest)).1 = .cons s1 s2 := by
      simp [elaborateList, h1, h2]
    have hout2 : (elaborateList buildOk parent (.cons e rest)).2 = t1 ++ t2 := by
      simp [elaborateList, h1, h2]
    have hrefs : (SElementList.cons s1 s2).refs = s1.refs ++ s2.refs := rfl
    rw [hout1, hout2, hrefs]
    exact elabClosed_merge IH1 IH2
end

/-! ### Fixup: sorting and deduplication -/

theorem sortByIdx_perm (ts : List Tabstop) : (sortByIdx ts).Perm ts :=
  List.perm_insertionSort idxLe ts

theorem sortByIdx_mem {x : Tabstop} {ts : List Tabstop} :
    x ∈ sortByIdx ts ↔ x ∈ ts :=
  (sortByIdx_perm ts).mem_iff

theorem sortByIdx_idx_mem {i : Nat} {ts : List Tabstop} :
    i ∈ (sortByIdx ts).map Tabstop.idx ↔ i ∈ ts.map Tabstop.idx :=
  ((sortByIdx_perm ts).map Tabstop.idx).mem_iff

theorem sortByIdx_sorted (ts : List Tabstop) :
    (sortByIdx ts).Sorted idxLe :=
  List.sorted_insertionSort idxLe ts

theorem dedupGo_subset :
    ∀ (l : List Tabstop) (b : Tabstop), ∀ x ∈ dedupGo b l, x ∈ b :: l
  | [], b, x, hx => by
    simp [dedupGo] at hx
    simp [hx]
  | a :: ts, b, x, hx => by
    rw [dedupGo] at hx
    by_cases h : a.idx = b.idx
    · rw [if_pos h] at hx
      have := dedupGo_subset ts _ x hx
      rcases List.mem_cons.1 this with h' | h'
      · by_cases hb : b.kind.isEmptyKind
        · simp [hb] at h'
          simp [h']
        · simp [hb] at h'
          simp [h']
      · simp [h']
    · rw [if_neg h] at hx
      rcases List.mem_cons.1 hx with h' | h'
      · simp [h']
      · have := dedupGo_subset ts a x h'
        rcases List.mem_cons.1 this with h'' | h''
        · simp [h'']
        · simp [h'']

theorem dedupGo_idx_cover :
    ∀ (l : List Tabstop) (b : Tabstop) (i : Nat),
      (i = b.idx ∨ i ∈ l.map Tabstop.idx) →
      i ∈ (dedupGo b l).map Tabstop.idx
  | [], b, i, h => by
    rcases h with h | h
    · simp [dedupGo, h]
    · simp at h
  | a :: ts, b, i, h => by
    rw [dedupGo]
    by_cases heq : a.idx = b.idx
    · rw [if_pos heq]
      apply dedupGo_idx_cover ts
      have hk : (if b.kind.isEmptyKind then a else b).idx = b.idx := by
        by_cases hb : b.kind.isEmptyKind <;> simp [hb, heq]
      rcases h with h | h
      · exact Or.inl (by rw [hk, h])
      · simp only [List.map_cons, List.mem_cons] at h
        rcases h with h | h
        · exact Or.inl (by rw [hk, h, heq])
        · exact Or.inr h
    · rw [if_neg heq]
      simp only [List.map_cons, List.mem_cons]
      rcases h with h | h
      · exact Or.inl h
      · simp only [List.map_cons, List.mem_cons] at h
        rcases h with h | h
        · exact Or.inr (dedupGo_idx_cover ts a i (Or.inl h))
        · exact Or.inr (dedupGo_idx_cover ts a i (Or.inr h))

theorem dedupGo_sorted :
    ∀ (l : List Tabstop) (b : Tabstop), (b :: l).Sorted idxLe →
      (dedupGo b l).Pairwise fun x y => x.idx < y.idx
  | [], b, _ => by simp [dedupGo]
  | a :: ts, b, h => by
    rw [dedupGo]
    have hba : idxLe b a := (List.pairwise_cons.1 h).1 a (List.mem_cons_self a ts)
    have hts : (a :: ts).Sorted idxLe := (List.pairwise_cons.1 h).2
    by_cases heq : a.idx = b.idx
    · rw [if_pos heq]
      apply dedupGo_sorted ts
      by_cases hb : b.kind.isEmptyKind
      · simp only [if_pos hb]
        exact hts
      · simp only [if_neg hb]
        refine List.pairwise_cons.2 ⟨?_, (List.pairwise_cons.1 hts).2⟩
        intro x hx
        have : idxLe a x := (List.pairwise_cons.1 hts).1 x hx
        unfold idxLe at *
        omega
    · rw [if_neg heq]
      have hlt : b.idx < a.idx := by
        unfold idxLe at hba
        omega
      refine List.pairwise_cons.2 ⟨?_, dedupGo_sorted ts a hts⟩
      intro x hx
      have hx' := dedupGo_subset ts a x hx
      rcases List.mem_cons.1 hx' with h' | h'
      · rw [h']; exact hlt
      · have : idxLe a x := (List.pairwise_cons.1 hts).1 x h'
        unfold idxLe at this
        omega

theorem dedupTabstops_subset {x : Tabstop} {l : List Tabstop}
    (hx : x ∈ dedupTabstops l) : x ∈ l := by
  cases l with
  | nil => simp [dedupTabstops] at hx
  | cons b ts => exact dedupGo_subset ts b x hx

theorem dedupTabstops_idx_cover {i : Nat} {l : List Tabstop}
    (h : i ∈ l.map Tabstop.idx) : i ∈ (dedupTabstops l).map Tabstop.idx := by
  cases l with
  | nil => simp at h
  | cons b ts =>
    simp only [List.map_cons, List.mem_cons] at h
    exact dedupGo_idx_cover ts b i h

theorem dedupTabstops_sorted {l : List Tabstop} (h : l.Sorted idxLe) :
    (dedupTabstops l).Pairwise fun x y => x.idx < y.idx := by
  cases l with
  | nil => simp [dedupTabstops]
  | cons b ts => exact dedupGo_sorted ts b h

theorem fixup_subset {x : Tabstop} {l : List Tabstop}
    (hx : x ∈ fixupTabstops l) : x ∈ l :=
  sortByIdx_mem.1 (dedupTabstops_subset hx)

theorem fixup_idx_cover {i : Nat} {l : List Tabstop}
    (h : i ∈ l.map Tabstop.idx) : i ∈ (fixupTabstops l).map Tabstop.idx :=
  dedupTabstops_idx_cover (sortByIdx_idx_mem.2 h)

theorem fixup_sorted (l : List Tabstop) :
    (fixupTabstops l).Pairwise fun x y => x.idx < y.idx :=
  dedupTabstops_sorted (sortByIdx_sorted l)

/-! ### Ensure-last-tabstop and renumbering -/

theorem append_refs : ∀ l m : SElementList,
    (l.append m).refs = l.refs ++ m.refs
  | .nil, m => by simp [SElementList.append, SElementList.refs]
  | .cons e t, m => by
    simp [SElementList.append, SElementList.refs, append_refs t m]

theorem append_getLast : ∀ (l : SElementList) (e : SnippetElement),
    (l.append (.cons e .nil)).getLast? = some e
  | .nil, _ => rfl
  | .cons _ .nil, _ => rfl
  | .cons _ (.cons y t), e => append_getLast (.cons y t) e

theorem lookupIdx_isSome {ts : List Tabstop} {i : Nat}
    (h : i ∈ ts.map Tabstop.idx) :
    ∃ j, lookupIdx ts i = some j ∧ j < ts.length := by
  induction ts with
  | nil => simp at h
  | cons t rest ih =>
    by_cases ht : t.idx = i
    · exact ⟨0, by simp [lookupIdx, ht], by simp⟩
    · simp only [List.map_cons, List.mem_cons] at h
      rcases h with h | h
      · exact absurd h.symm ht
      · rcases ih h with ⟨j, hj, hlt⟩
        refine ⟨j + 1, ?_, by simp; omega⟩
        simp [lookupIdx, ht, hj]

theorem lookupIdx_head_zero {t0 : Tabstop} {rest : List Tabstop}
    (h : t0.idx = 0) : lookupIdx (t0 :: rest) 0 = some 0 := by
  simp [lookupIdx, h]

mutual
/-- Renumbering succeeds on an element whose references are all present in
the table, and the result's references are valid table positions. -/
theorem renumberElem_ok (ts : List Tabstop) :
    ∀ e : SnippetElement, (∀ r ∈ e.refs, r ∈ ts.map Tabstop.idx) →
      ∃ e2, renumberElem ts e = some e2 ∧ e2.refsBelow ts.length = true
  | .Tabstop i, h => by
    have hi : i ∈ ts.map Tabstop.idx := h i (by simp [SnippetElement.refs])
    rcases lookupIdx_isSome hi with ⟨j, hj, hlt⟩
    exact ⟨.Tabstop j, by simp [renumberElem, hj],
      by simp [SnippetElement.refsBelow, hlt]⟩
  | .Variable name none tr, _ =>
    ⟨.Variable name none tr, by simp [renumberElem],
      by simp [SnippetElement.refsBelow]⟩
  | .Variable name (some d) tr, h => by
    have hd : ∀ r ∈ d.refs, r ∈ ts.map Tabstop.idx := by
      intro r hr
      exact h r (by simpa [SnippetElement.refs] using hr)
    rcases renumberList_ok ts d hd with ⟨d2, hd2, hb⟩
    exact ⟨.Variable name (some d2) tr, by simp [renumberElem, hd2],
      by simpa [SnippetElement.refsBelow] using hb⟩
  | .Text s, _ =>
    ⟨.Text s, by simp [renumberElem], by simp [SnippetElement.refsBelow]⟩

/-- List version of `renumberElem_ok`. -/
theorem renumberList_ok (ts : List Tabstop) :
    ∀ l : SElementList, (∀ r ∈ l.refs, r ∈ ts.map Tabstop.idx) →
      ∃ l2, renumberList ts l = some l2 ∧ l2.refsBelow ts.length = true
  | .nil, _ => ⟨.nil, by simp [renumberList], by simp [SElementList.refsBelow]⟩
  | .cons e rest, h => by
    have he : ∀ r ∈ e.refs, r ∈ ts.map Tabstop.idx := by
      intro r hr
      exact h r (by simp [SElementList.refs]; exact Or.inl hr)
    have hrest : ∀ r ∈ rest.refs, r ∈ ts.map Tabstop.idx := by
      intro r hr
      exact h r (by simp [SElementList.refs]; exact Or.inr hr)
    rcases renumberElem_ok ts e he with ⟨e2, he2, hb1⟩
    rcases renumberList_ok ts rest hrest with ⟨l2, hl2, hb2⟩
    exact ⟨.cons e2 l2, by simp [renumberList, he2, hl2],
      by simp [SElementList.refsBelow, hb1, hb2]⟩
end

theorem renumberTabstop_ok (full : List Tabstop) (t : Tabstop)
    (h : ∀ r ∈ t.refs, r ∈ full.map Tabstop.idx) :
    ∃ t2, renumberTabstop full t = some t2 ∧ t2.idx = t.idx ∧
      t2.refsBelow full.length = true := by
  have hparent : ∃ p2, (match t.parent with
      | none => some none
      | some p =>
        match lookupIdx full p with
        | some r => some (some r)
        | none => none) = some p2 ∧
      (match p2 with
       | some j => j < full.length
       | none => True) := by
    cases hp : t.parent with
    | none => exact ⟨none, rfl, trivial⟩
    | some p =>
      have hmem : p ∈ full.map Tabstop.idx := by
        apply h
        unfold Tabstop.refs
        rw [hp]
        simp [optList]
      rcases lookupIdx_isSome hmem with ⟨j, hj, hlt⟩
      exact ⟨some j, by simp [hj], hlt⟩
  have hkind : ∃ k2, (match t.kind with
      | .Placeholder d =>
        match renumberList full d with
        | some d2 => some (TabstopKind.Placeholder d2)
        | none => none
      | k => some k) = some k2 ∧
      (match k2 with
       | .Placeholder d2 => d2.refsBelow full.length = true
       | _ => True) := by
    cases hk : t.kind with
    | Placeholder d =>
      have hd : ∀ r ∈ d.refs, r ∈ full.map Tabstop.idx := by
        intro r hr
        apply h
        unfold Tabstop.refs
        rw [hk]
        exact List.mem_append.2 (Or.inr hr)
      rcases renumberList_ok full d hd with ⟨d2, hd2, hb⟩
      exact ⟨.Placeholder d2, by simp [hd2], hb⟩
    | Choice cs => exact ⟨.Choice cs, rfl, trivial⟩
    | Empty => exact ⟨.Empty, rfl, trivial⟩
    | Transform tr => exact ⟨.Transform tr, rfl, trivial⟩
  rcases hparent with ⟨p2, hp2, hp2b⟩
  rcases hkind with ⟨k2, hk2, hk2b⟩
  refine ⟨{ t with parent := p2, kind := k2 }, ?_, rfl, ?_⟩
  · unfold renumberTabstop
    rw [hp2, hk2]
  · unfold Tabstop.refsBelow
    rw [Bool.and_eq_true]
    constructor
    · cases p2 with
      | none => simp
      | some j => simpa using hp2b
    · cases k2 with
      | Placeholder d2 => simpa using hk2b
      | Choice cs => simp
      | Empty => simp
      | Transform tr => simp

theorem renumberTable_ok (full : List Tabstop) :
    ∀ l : List Tabstop, (∀ t ∈ l, ∀ r ∈ t.refs, r ∈ full.map Tabstop.idx) →
      ∃ l2, renumberTable full l = some l2 ∧
        l2.map Tabstop.idx = l.map Tabstop.idx ∧
        ∀ t2 ∈ l2, t2.refsBelow full.length = true
  | [], _ => ⟨[], by simp [renumberTable], by simp, by simp⟩
  | t :: rest, h => by
    rcases renumberTabstop_ok full t (h t (List.mem_cons_self t rest)) with
      ⟨t2, ht2, hidx, hb⟩
    rcases renumberTable_ok full rest
        (fun x hx => h x (List.mem_cons_of_mem t hx)) with ⟨l2, hl2, hmap, hball⟩
    refine ⟨t2 :: l2, ?_, ?_, ?_⟩
    · unfold renumberTable
      rw [ht2, hl2]
    · simp [hidx, hmap]
    · intro x hx
      rcases List.mem_cons.1 hx with h' | h'
      · rw [h']; exact hb
      · exact hball x h'

/-- Case analysis of `ensure_last_tabstop`. -/
theorem ensure_cases (s : Snippet) :
    (∃ t0 ts, s.tabstops = t0 :: ts ∧ t0.idx = 0 ∧ ensureLastTabstop s = s) ∨
    ((∀ t0 ts, s.tabstops = t0 :: ts → t0.idx ≠ 0) ∧
      ensureLastTabstop s =
        { elements := s.elements.append (.cons (.Tabstop 0) .nil),
          tabstops := ⟨0, none, .Empty⟩ :: s.tabstops }) := by
  obtain ⟨els, tabs⟩ := s
  cases tabs with
  | nil =>
    right
    refine ⟨?_, rfl⟩
    intro t0 ts h
    cases h
  | cons t0 ts =>
    by_cases h0 : t0.idx = 0
    · left
      exact ⟨t0, ts, rfl, h0,
        by simp [ensureLastTabstop, LAST_TABSTOP_IDX, h0]⟩
    · right
      refine ⟨?_, ?_⟩
      · intro t0' ts' h
        injection h with h1 h2
        rw [← h1]
        exact h0
      · simp [ensureLastTabstop, LAST_TABSTOP_IDX, h0]

/-- Renumbering maps the last element of a sequence to the renumbering of
that element. -/
theorem renumberList_getLast (ts : List Tabstop) :
    ∀ (l l2 : SElementList) (e : SnippetElement),
      renumberList ts l = some l2 → l.getLast? = some e →
      ∃ e2, renumberElem ts e = some e2 ∧ l2.getLast? = some e2
  | .nil, _, _, _, hl => by cases hl
  | .cons x .nil, l2, e, hr, hl => by
    have hex : e = x := by
      simp [SElementList.getLast?] at hl
      exact hl.symm
    subst hex
    rw [renumberList] at hr
    cases hx : renumberElem ts e with
    | none =>
      rw [hx] at hr
      cases hr
    | some x2 =>
      rw [hx] at hr
      simp only [renumberList] at hr
      cases hr
      exact ⟨x2, rfl, rfl⟩
  | .cons x (.cons y t), l2, e, hr, hl => by
    have hl' : (SElementList.cons y t).getLast? = some e := hl
    rw [renumberList] at hr
    cases hx : renumberElem ts x with
    | none =>
      rw [hx] at hr
      cases hr
    | some x2 =>
      rw [hx] at hr
      cases hrest : renumberList ts (.cons y t) with
      | none =>
        rw [hrest] at hr
        cases hr
      | some l2' =>
        rw [hrest] at hr
        cases hr
        rcases renumberList_getLast ts (.cons y t) l2' e hrest hl' with ⟨e2, he2, hlast⟩
        refine ⟨e2, he2, ?_⟩
        have hcons : ∃ y2 t2, l2' = .cons y2 t2 := by
          rw [renumberList] at hrest
          cases hy : renumberElem ts y with
          | none => rw [hy] at hrest; cases hrest
          | some y2 =>
            rw [hy] at hrest
            cases ht : renumberList ts t with
            | none => rw [ht] at hrest; cases hrest
            | some t2 =>
              rw [ht] at hrest
              cases hrest
              exact ⟨y2, t2, rfl⟩
        rcases hcons with ⟨y2, t2, rfl⟩
        exact hlast

/-- Renumbering of the synthesized terminal tabstop record is the identity. -/
theorem renumberTabstop_synth (full : List Tabstop) :
    renumberTabstop full ⟨0, none, .Empty⟩ = some ⟨0, none, .Empty⟩ :=
  rfl

/-- Shared across the claims: `Snippet::new` succeeds on every raw template
tree and its output satisfies the elaboration invariants. -/
theorem snippetNew_invariants (buildOk : String → Bool) (raw : PElementList) :
    ∃ s : Snippet, Snippet.new buildOk raw = some s ∧
      s.tabstops ≠ [] ∧
      (s.tabstops.map Tabstop.idx).head? = some 0 ∧
      (s.tabstops.map Tabstop.idx).Chain' (· < ·) ∧
      s.elements.refsBelow s.tabstops.length = true ∧
      (∀ t ∈ s.tabstops, t.refsBelow s.tabstops.length = true) ∧
      ((∀ t ∈ (elaborateList buildOk none raw).2, t.idx ≠ 0) →
        s.tabstops.head? = some ⟨0, none, .Empty⟩ ∧
        s.elements.getLast? = some (.Tabstop 0)) := by
  have hclosed := elabList_closed buildOk none raw
  rcases hE : elaborateList buildOk none raw with ⟨els, elabTs⟩
  rw [hE] at hclosed
  have h1 : ∀ r ∈ els.refs, r ∈ elabTs.map Tabstop.idx := fun r hr => hclosed.1 r hr
  have h2 : ∀ t ∈ elabTs, ∀ r ∈ t.refs, r ∈ elabTs.map Tabstop.idx := by
    intro t ht r hr
    rcases hclosed.2 t ht r hr with h | h
    · simp [optList] at h
    · exact h
  have hnew : Snippet.new buildOk raw =
      renumberTabstops (ensureLastTabstop
        { elements := els, tabstops := fixupTabstops elabTs }) := by
    unfold Snippet.new
    rw [hE]
  -- properties of the pre-renumber snippet
  have hftsub : ∀ t ∈ fixupTabstops elabTs, ∀ r ∈ t.refs,
      r ∈ (fixupTabstops elabTs).map Tabstop.idx :=
    fun t ht r hr => fixup_idx_cover (h2 t (fixup_subset ht) r hr)
  have helsref : ∀ r ∈ els.refs, r ∈ (fixupTabstops elabTs).map Tabstop.idx :=
    fun r hr => fixup_idx_cover (h1 r hr)
  have hsorted := fixup_sorted elabTs
  -- case analysis on ensure_last_tabstop
  rcases ensure_cases { elements := els, tabstops := fixupTabstops elabTs } with
    ⟨t0, ts0, hts, h00, heq⟩ | ⟨hno, heq⟩
  all_goals rw [heq] at hnew
  -- Case A: a raw `$0` record already heads the sorted table.
  · have hts' : fixupTabstops elabTs = t0 :: ts0 := hts
    have hfull1 : ∀ r ∈ els.refs, r ∈ (fixupTabstops elabTs).map Tabstop.idx :=
      helsref
    rcases renumberList_ok (fixupTabstops elabTs) els hfull1 with ⟨els2, hels2, hbel⟩
    rcases renumberTable_ok (fixupTabstops elabTs) (fixupTabstops elabTs) hftsub with
      ⟨ts2, hts2, hmap, hball⟩
    have hlen : ts2.length = (fixupTabstops elabTs).length := by
      have := congrArg List.length hmap
      simpa using this
    refine ⟨⟨els2, ts2⟩, ?_, ?_, ?_, ?_, ?_, ?_, ?_⟩
    · rw [hnew]
      unfold renumberTabstops
      simp only
      rw [hels2, hts2]
    · intro hnil
      have hnil' : ts2 = [] := hnil
      rw [hnil', hts'] at hmap
      simp at hmap
    · show (ts2.map Tabstop.idx).head? = some 0
      rw [hmap, hts']
      simp [h00]
    · show (ts2.map Tabstop.idx).Chain' (· < ·)
      rw [hmap]
      rw [List.chain'_iff_pairwise]
      exact List.Pairwise.map Tabstop.idx (fun a b h => h) hsorted
    · show els2.refsBelow ts2.length = true
      rw [hlen]
      exact hbel
    · intro t ht
      rw [hlen]
      exact hball t ht
    · intro hno0
      exfalso
      have : t0 ∈ fixupTabstops elabTs := by
        rw [hts']
        exact List.mem_cons_self t0 ts0
      exact hno0 t0 (fixup_subset this) h00
  -- Case B: the `$0` record is synthesized and a trailing `$0` appended.
  · have hfull2 : ∀ t ∈ (⟨0, none, .Empty⟩ : Tabstop) :: fixupTabstops elabTs,
        ∀ r ∈ t.refs,
        r ∈ ((⟨0, none, .Empty⟩ : Tabstop) :: fixupTabstops elabTs).map Tabstop.idx := by
      intro t ht r hr
      rcases List.mem_cons.1 ht with h | h
      · subst h
        cases hr
      · right
        exact hftsub t h r hr
    have hfull1 : ∀ r ∈ (els.append (.cons (.Tabstop 0) .nil)).refs,
        r ∈ ((⟨0, none, .Empty⟩ : Tabstop) :: fixupTabstops elabTs).map Tabstop.idx := by
      intro r hr
      rw [append_refs] at hr
      rcases List.mem_append.1 hr with h | h
      · right
        exact helsref r h
      · simp [SElementList.refs, SnippetElement.refs] at h
        subst h
        simp
    rcases renumberList_ok _ _ hfull1 with ⟨els2, hels2, hbel⟩
    rcases renumberTable_ok ((⟨0, none, .Empty⟩ : Tabstop) :: fixupTabstops elabTs)
      ((⟨0, none, .Empty⟩ : Tabstop) :: fixupTabstops elabTs) hfull2 with
      ⟨ts2, hts2, hmap, hball⟩
    have hlen : ts2.length =
        ((⟨0, none, .Empty⟩ : Tabstop) :: fixupTabstops elabTs).length := by
      have := congrArg List.length hmap
      simpa using this
    have hts2' : ∃ rest2, ts2 = (⟨0, none, .Empty⟩ : Tabstop) :: rest2 := by
      have h' := hts2
      rw [renumberTable, renumberTabstop_synth] at h'
      cases hrt : renumberTable ((⟨0, none, .Empty⟩ : Tabstop) :: fixupTabstops elabTs)
          (fixupTabstops elabTs) with
      | none => rw [hrt] at h'; cases h'
      | some rest2 =>
        rw [hrt] at h'
        cases h'
        exact ⟨rest2, rfl⟩
    refine ⟨⟨els2, ts2⟩, ?_, ?_, ?_, ?_, ?_, ?_, ?_⟩
    · rw [hnew]
      unfold renumberTabstops
      simp only
      rw [hels2, hts2]
    · intro hnil
      have hnil' : ts2 = [] := hnil
      rcases hts2' with ⟨rest2, hrr⟩
      rw [hrr] at hnil'
      cases hnil' 
    · show (ts2.map Tabstop.idx).head? = some 0
      rw [hmap]
      rfl
    · show (ts2.map Tabstop.idx).Chain' (· < ·)
      rw [hmap]
      rw [List.chain'_iff_pairwise]
      refine List.Pairwise.map Tabstop.idx (fun a b h => h) ?_
      refine List.pairwise_cons.2 ⟨?_, hsorted⟩
      intro x hx
      show (0 : Nat) < x.idx
      cases hft : fixupTabstops elabTs with
      | nil => rw [hft] at hx; cases hx
      | cons f0 fts =>
        have hf0 : f0.idx ≠ 0 := hno f0 fts hft
        rw [hft] at hx
        rcases List.mem_cons.1 hx with h | h
        · rw [h]; omega
        · have : f0.idx < x.idx := by
            have hp := hsorted
            rw [hft] at hp
            exact (List.pairwise_cons.1 hp).1 x h
          omega
    · show els2.refsBelow ts2.length = true
      rw [hlen]
      exact hbel
    · intro t ht
      rw [hlen]
      exact hball t ht
    · intro _
      rcases hts2' with ⟨rest2, hrr⟩
      constructor
      · rw [hrr]
        rfl
      · have hlast : (els.append (.cons (.Tabstop 0) .nil)).getLast? =
            some (.Tabstop 0) := append_getLast els _
        rcases renumberList_getLast _ _ _ _ hels2 hlast with ⟨e2, he2, hlast2⟩
        have he2' : e2 = .Tabstop 0 := by
          rw [renumberElem] at he2
          rw [show lookupIdx ((⟨0, none, .Empty⟩ : Tabstop) :: fixupTabstops elabTs) 0 =
              some 0 from lookupIdx_head_zero rfl] at he2
          cases he2
          rfl
        rw [← he2']
        exact hlast2

/-! ### Rendering state lemmas (C8 machinery) -/

theorem get?_set_self {α : Type _} :
    ∀ (l : List α) (i : Nat) (a : α), i < l.length → (l.set i a).get? i = some a
  | _ :: _, 0, _, _ => rfl
  | _ :: xs, i + 1, a, h => get?_set_self xs i a (by simpa using h)
  | [], _, _, h => absurd h (by simp)

theorem modifyTabstop_length (r : RenderedSnippet) (idx : Nat)
    (f : RTabstop → RTabstop) :
    (r.modifyTabstop idx f).tabstops.length = r.tabstops.length := by
  unfold RenderedSnippet.modifyTabstop
  cases h : r.tabstops.get? idx <;> simp

theorem modifyTabstop_get {r : RenderedSnippet} {idx : Nat} {t : RTabstop}
    (f : RTabstop → RTabstop) (h : r.tabstops.get? idx = some t) :
    (r.modifyTabstop idx f).tabstops.get? idx = some (f t) := by
  unfold RenderedSnippet.modifyTabstop
  rw [h]
  have hlt : idx < r.tabstops.length := by
    by_contra hge
    rw [List.get?_eq_none.2 (by omega)] at h
    cases h
  exact get?_set_self _ _ _ hlt

theorem pushStr_dst (st : RState) (s : String) : (pushStr st s).dst = st.dst :=
  rfl

theorem foldl_pushStr_dst (nl : String) :
    ∀ (l : List String) (st0 : RState),
      (l.foldl (fun acc line => pushStr (pushStr acc nl) line) st0).dst = st0.dst
  | [], _ => rfl
  | x :: xs, st0 => foldl_pushStr_dst nl xs (pushStr (pushStr st0 nl) x)

theorem renderText_dst (st : RState) (nl s : String) :
    (renderText st nl s).dst = st.dst := by
  unfold renderText
  cases hm : (splitNl s.data).map (fun it => String.mk (stripCr it)) with
  | nil => rfl
  | cons first rest => exact foldl_pushStr_dst nl rest (pushStr st first)

mutual
/-- Rendering never changes the number of rendered tabstop records. -/
theorem renderList_len : ∀ (fuel : Nat) (src : Snippet) (ctx : RenderCtx)
    (l : SElementList) (st st' : RState),
    renderList fuel src ctx l st = some st' →
    st'.dst.tabstops.length = st.dst.tabstops.length
  | 0, _, _, _, _, _, h => by cases h
  | _ + 1, _, _, .nil, _, _, h => by cases h; rfl
  | fuel + 1, src, ctx, .cons e rest, st, st', h => by
    rw [renderList] at h
    cases h1 : renderElem fuel src ctx e st with
    | none => rw [h1] at h; cases h
    | some st1 =>
      rw [h1] at h
      rw [renderList_len fuel src ctx rest st1 st' h]
      exact renderElem_len fuel src ctx e st st1 h1

theorem renderElem_len : ∀ (fuel : Nat) (src : Snippet) (ctx : RenderCtx)
    (e : SnippetElement) (st st' : RState),
    renderElem fuel src ctx e st = some st' →
    st'.dst.tabstops.length = st.dst.tabstops.length
  | 0, _, _, _, _, _, h => by cases h
  | fuel + 1, src, ctx, .Tabstop idx, st, st', h =>
    renderTabstop_len fuel src ctx idx st st' h
  | _ + 1, _, ctx, .Variable name none tr, st, st', h => by
    rw [renderElem] at h
    cases hv : ctx.resolveVar name with
    | none => rw [hv] at h; cases h; rfl
    | some val =>
      rw [hv] at h
      cases tr with
      | none => cases h; rfl
      | some t => cases h; rfl
  | fuel + 1, src, ctx, .Variable name (some d) tr, st, st', h => by
    rw [renderElem] at h
    cases hv : ctx.resolveVar name with
    | none =>
      rw [hv] at h
      exact renderList_len fuel src ctx d st st' h
    | some val =>
      rw [hv] at h
      cases tr with
      | none => cases h; rfl
      | some t => cases h; rfl
  | _ + 1, _, ctx, .Text s, st, st', h => by
    rw [renderElem] at h
    cases h
    rw [renderText_dst]

theorem renderTabstop_len : ∀ (fuel : Nat) (src : Snippet) (ctx : RenderCtx)
    (idx : Nat) (st st' : RState),
    renderTabstop fuel src ctx idx st = some st' →
    st'.dst.tabstops.length = st.dst.tabstops.length
  | 0, _, _, _, _, _, h => by cases h
  | fuel + 1, src, ctx, idx, st, st', h => by
    rw [renderTabstop] at h
    cases hg : src.tabstops.get? idx with
    | none => simp only [hg] at h; cases h
    | some srcTab =>
      simp only [hg] at h
      by_cases hif : idx < st.dst.tabstops.length
      · rw [if_pos hif] at h
        cases hk : srcTab.kind with
        | Placeholder dd =>
          cases dd with
          | nil =>
            simp only [hk] at h
            cases h
            simp [modifyTabstop_length]
          | cons d0 drest =>
            simp only [hk] at h
            cases h1 : renderList fuel src ctx (.cons d0 drest) st with
            | none => simp only [h1] at h; cases h
            | some st1 =>
              simp only [h1] at h
              cases h
              simp only [modifyTabstop_length]
              exact renderList_len fuel src ctx (.cons d0 drest) st st1 h1
        | Choice cs => simp only [hk] at h; cases h; simp [modifyTabstop_length]
        | Empty => simp only [hk] at h; cases h; simp [modifyTabstop_length]
        | Transform tr => simp only [hk] at h; cases h; simp [modifyTabstop_length]
      · rw [if_neg hif] at h
        cases h
end

/-! ### Navigation characterization (C3 machinery) -/

theorem expectedNext_eq_range' (ts : List RTabstop) (a : Nat) :
    expectedNext ts a =
      ((List.range' (a + 1) (ts.length - (a + 1))).filter (nonVacuous ts)).map
        fun i => (i, decide (i + 1 = ts.length)) := by
  unfold expectedNext
  congr 1
  rw [List.range_eq_range']
  by_cases h : a + 1 ≤ ts.length
  · have hsplit : List.range' 0 ts.length =
        List.range' 0 (a + 1) ++ List.range' (a + 1) (ts.length - (a + 1)) := by
      have happ := List.range'_append 0 (a + 1) (ts.length - (a + 1)) 1
      rw [show (ts.length - (a + 1)) + (a + 1) = ts.length from by omega] at happ
      rw [← happ]
      simp [Nat.one_mul]
    rw [hsplit, List.filter_append]
    have h1 : (List.range' 0 (a + 1)).filter
        (fun i => decide (a < i) && nonVacuous ts i) = [] := by
      rw [List.filter_eq_nil_iff]
      intro i hi
      have := List.mem_range'_1.1 hi
      have hle : ¬a < i := by omega
      simp [hle]
    rw [h1, List.nil_append]
    apply List.filter_congr
    intro i hi
    have := List.mem_range'_1.1 hi
    have hlt : a < i := by omega
    simp [hlt]
  · have h0 : ts.length - (a + 1) = 0 := by omega
    rw [h0]
    have hr : (List.range' (a + 1) 0).filter (nonVacuous ts) = [] := rfl
    rw [hr, List.filter_eq_nil_iff]
    intro i hi
    have := List.mem_range'_1.1 hi
    have hle : ¬a < i := by omega
    simp [hle]

theorem expectedNext_nil {ts : List RTabstop} {a : Nat}
    (h : ts.length ≤ a + 1) : expectedNext ts a = [] := by
  rw [expectedNext_eq_range']
  rw [show ts.length - (a + 1) = 0 from by omega]
  rfl

theorem expectedNext_cons {ts : List RTabstop} {a : Nat}
    (h : a + 1 < ts.length) (hnv : nonVacuous ts (a + 1) = true) :
    expectedNext ts a =
      (a + 1, decide (a + 1 + 1 = ts.length)) :: expectedNext ts (a + 1) := by
  rw [expectedNext_eq_range', expectedNext_eq_range']
  rw [show ts.length - (a + 1) = (ts.length - (a + 2)) + 1 from by omega]
  rw [List.range'_succ]
  rw [List.filter_cons]
  simp [hnv]

theorem expectedNext_skip {ts : List RTabstop} {a : Nat}
    (h : a + 1 < ts.length) (hnv : nonVacuous ts (a + 1) = false) :
    expectedNext ts a = expectedNext ts (a + 1) := by
  rw [expectedNext_eq_range', expectedNext_eq_range']
  rw [show ts.length - (a + 1) = (ts.length - (a + 2)) + 1 from by omega]
  rw [List.range'_succ]
  rw [List.filter_cons]
  simp [hnv]

theorem expectedPrev_zero (ts : List RTabstop) : expectedPrev ts 0 = [] :=
  rfl

theorem expectedPrev_cons {ts : List RTabstop} {b : Nat}
    (hnv : nonVacuous ts b = true) :
    expectedPrev ts (b + 1) = b :: expectedPrev ts b := by
  unfold expectedPrev
  rw [List.range_succ, List.filter_append, List.reverse_append]
  rw [List.filter_cons]
  simp [hnv]

theorem expectedPrev_skip {ts : List RTabstop} {b : Nat}
    (hnv : nonVacuous ts b = false) :
    expectedPrev ts (b + 1) = expectedPrev ts b := by
  unfold expectedPrev
  rw [List.range_succ, List.filter_append, List.reverse_append]
  rw [List.filter_cons]
  simp [hnv]

/-- `primary_idx` over a single-insertion-range session finds index 0. -/
theorem primaryIdxOf_single {s : ActiveSnippet} {R : Range} {sel : Selection}
    (h1 : s.ranges = [R]) (hsel : SelOK R sel) :
    primaryIdxOf s sel = some 0 := by
  unfold SelOK at hsel
  unfold primaryIdxOf
  cases hg : sel.ranges.get? sel.primaryIndex with
  | none => rw [hg] at hsel; cases hsel
  | some pr =>
    rw [hg] at hsel
    rw [h1]
    unfold positionContains
    rw [if_pos hsel]

theorem activate_vacuous {s : ActiveSnippet} {pi : Nat} {dir : Direction}
    {t : RTabstop}
    (hget : s.tabstops.get? s.activeTabstop = some t)
    (hnv : nonVacuous s.tabstops s.activeTabstop = false) :
    activateTabstop s pi dir = .vacuous := by
  unfold nonVacuous at hnv
  rw [hget] at hnv
  simp only [Bool.not_eq_false'] at hnv
  unfold activateTabstop
  simp only [hget]
  rw [if_pos (by
    have := Bool.and_eq_true _ _ ▸ hnv
    exact ⟨this.1, this.2⟩)]

theorem activate_ok {s : ActiveSnippet} {R : Range} {t : RTabstop}
    (dir : Direction) (hwf : NavWF s R)
    (hget : s.tabstops.get? s.activeTabstop = some t)
    (hnv : nonVacuous s.tabstops s.activeTabstop = true) :
    ∃ anc sel',
      activateTabstop s 0 dir =
        .ok { s with activeTabstops := s.activeTabstop :: anc } sel' ∧
      SelOK R sel' := by
  obtain ⟨hR, hts, hparents⟩ := hwf
  have hlt : s.activeTabstop < s.tabstops.length := by
    by_contra hge
    rw [List.get?_eq_none.2 (by omega)] at hget
    cases hget
  have hnv' : ¬(t.hasPlaceholder = true ∧ t.ranges.all Range.isEmptyR = true) := by
    unfold nonVacuous at hnv
    rw [hget] at hnv
    simp only [Bool.not_eq_true'] at hnv
    intro hc
    rw [hc.1, hc.2] at hnv
    cases hnv
  have hanc := hparents s.activeTabstop hlt
  cases hanc' : ancestorList s.tabstops (s.tabstops.length + 1) s.activeTabstop with
  | none => rw [hanc'] at hanc; cases hanc
  | some anc =>
    have hlen0 : ¬s.ranges.length = 0 := by
      rw [hR]
      simp
    refine ⟨anc,
      ⟨t.ranges.map fun r =>
          if dir = .Backward then SRange.flip ⟨r.start, r.«end»⟩
          else ⟨r.start, r.«end»⟩,
        0 * (t.ranges.length / s.ranges.length)⟩, ?_, ?_⟩
    · unfold activateTabstop
      simp only [hget, hanc']
      rw [if_neg hnv', if_neg hlen0]
    · have hmem : t ∈ s.tabstops := List.get?_mem hget
      obtain ⟨hne, hcont⟩ := hts t hmem
      cases hranges : t.ranges with
      | nil => exact absurd hranges hne
      | cons r0 rs =>
        have hcr : R.contains (SRange.toRange
            (if dir = .Backward then SRange.flip ⟨r0.start, r0.«end»⟩
             else ⟨r0.start, r0.«end»⟩)) = true := by
          have hc0 := hcont r0 (by rw [hranges]; exact List.mem_cons_self r0 rs)
          by_cases hdir : dir = .Backward
          · rw [if_pos hdir]
            unfold SRange.flip SRange.toRange
            simp only
            rw [Nat.min_comm, Nat.max_comm]
            exact hc0
          · rw [if_neg hdir]
            exact hc0
        unfold SelOK
        simp only [Nat.zero_mul, hranges, List.map_cons, List.get?_cons_zero]
        exact hcr

/-- One `next_tabstop` scan: with well-formed session state it lands on the
head of `expectedNext` (or exhausts the scan when that list is empty). -/
theorem nextGo_exp : ∀ (fuel : Nat) (s : ActiveSnippet) (R : Range),
    NavWF s R → s.activeTabstop < s.tabstops.length →
    s.tabstops.length - s.activeTabstop ≤ fuel →
    (expectedNext s.tabstops s.activeTabstop = [] →
      ∃ s', nextGo fuel s 0 = some (s', none)) ∧
    (∀ i flag rest, expectedNext s.tabstops s.activeTabstop = (i, flag) :: rest →
      ∃ s' sel', nextGo fuel s 0 = some (s', some (sel', flag)) ∧
        s'.activeTabstop = i ∧ s'.tabstops = s.tabstops ∧ s'.ranges = s.ranges ∧
        s.activeTabstop < i ∧ i < s.tabstops.length ∧
        NavWF s' R ∧ SelOK R sel' ∧
        rest = expectedNext s'.tabstops s'.activeTabstop)
  | 0, s, R, _, hlt, hfuel => absurd hlt (by omega)
  | fuel + 1, s, R, hwf, hlt, hfuel => by
    by_cases hstep : s.activeTabstop + 1 < s.tabstops.length
    · obtain ⟨t1, ht1⟩ : ∃ t1, s.tabstops.get? (s.activeTabstop + 1) = some t1 := by
        cases hq : s.tabstops.get? (s.activeTabstop + 1) with
        | none =>
          have := List.get?_eq_none.1 hq
          omega
        | some t1 => exact ⟨t1, rfl⟩
      have hwf1 : NavWF { s with activeTabstop := s.activeTabstop + 1 } R := hwf
      have hget1 : ({ s with activeTabstop := s.activeTabstop + 1 } :
          ActiveSnippet).tabstops.get?
          ({ s with activeTabstop := s.activeTabstop + 1} :
            ActiveSnippet).activeTabstop = some t1 := ht1
      cases hnv : nonVacuous s.tabstops (s.activeTabstop + 1) with
      | true =>
        rcases activate_ok .Forward hwf1 hget1 hnv with ⟨anc, sel', hact, hselok⟩
        constructor
        · intro hemp
          rw [expectedNext_cons hstep hnv] at hemp
          cases hemp
        · intro i flag rest hcons
          rw [expectedNext_cons hstep hnv] at hcons
          injection hcons with h1 h2
          injection h1 with hi hflag
          subst hi
          subst hflag
          subst h2
          refine ⟨{ ranges := s.ranges,
                    activeTabstops := (s.activeTabstop + 1) :: anc,
                    activeTabstop := s.activeTabstop + 1,
                    tabstops := s.tabstops }, sel', ?_, rfl, rfl, rfl,
            by omega, hstep, hwf, hselok, rfl⟩
          rw [nextGo, if_pos hstep]
          simp only [hact]
          try rfl
      | false =>
        have hvac := @activate_vacuous _ 0 .Forward _ hget1 hnv
        have IH := nextGo_exp fuel { s with activeTabstop := s.activeTabstop + 1 }
          R hwf1 hstep
          (show s.tabstops.length - (s.activeTabstop + 1) ≤ fuel by omega)
        constructor
        · intro hemp
          rw [expectedNext_skip hstep hnv] at hemp
          rcases IH.1 hemp with ⟨s', hs'⟩
          refine ⟨s', ?_⟩
          rw [nextGo, if_pos hstep]
          simp only [hvac]
          exact hs'
        · intro i flag rest hcons
          rw [expectedNext_skip hstep hnv] at hcons
          rcases IH.2 i flag rest hcons with
            ⟨s', sel', heq, hA, hB, hC, hD, hE, hF, hG, hH⟩
          have hD' : s.activeTabstop + 1 < i := hD
          refine ⟨s', sel', ?_, hA, hB, hC, by omega, hE, hF, hG, hH⟩
          rw [nextGo, if_pos hstep]
          simp only [hvac]
          exact heq
    · have hnil : expectedNext s.tabstops s.activeTabstop = [] :=
        expectedNext_nil (by omega)
      constructor
      · intro _
        exact ⟨s, by rw [nextGo, if_neg hstep]⟩
      · intro i flag rest hcons
        rw [hnil] at hcons
        cases hcons

/-- Iterating `next_tabstop` visits exactly `expectedNext`. -/
theorem visitsNext_spec : ∀ (fuel : Nat) (s : ActiveSnippet) (sel : Selection)
    (R : Range),
    NavWF s R → SelOK R sel →
    s.activeTabstop < s.tabstops.length →
    s.tabstops.length - s.activeTabstop ≤ fuel →
    visitsNext fuel s sel = some (expectedNext s.tabstops s.activeTabstop)
  | 0, _, _, _, _, _, hlt, hfuel => absurd hlt (by omega)
  | fuel + 1, s, sel, R, hwf, hsel, hlt, hfuel => by
    have hnext := nextGo_exp (s.tabstops.length + 1) s R hwf hlt (by omega)
    rw [visitsNext]
    unfold ActiveSnippet.nextTabstop
    simp only [primaryIdxOf_single hwf.1 hsel]
    cases hexp : expectedNext s.tabstops s.activeTabstop with
    | nil =>
      rcases hnext.1 hexp with ⟨s', hs'⟩
      simp only [hs']
    | cons p rest =>
      obtain ⟨i, flag⟩ := p
      rcases hnext.2 i flag rest hexp with
        ⟨s', sel', heq, hA, hB, hC, hD, hE, hF, hG, hH⟩
      have hrec : visitsNext fuel s' sel' = some rest := by
        rw [visitsNext_spec fuel s' sel' R hF hG
          (by rw [hA, hB]; exact hE)
          (by rw [hA, hB]; omega), hH]
      simp only [heq, hrec, hA]

/-- One `prev_tabstop` scan lands on the head of `expectedPrev`. -/
theorem prevGo_exp : ∀ (fuel : Nat) (s : ActiveSnippet) (R : Range),
    NavWF s R → s.activeTabstop < s.tabstops.length →
    s.activeTabstop < fuel →
    (expectedPrev s.tabstops s.activeTabstop = [] →
      ∃ s', prevGo fuel s 0 = some (s', none)) ∧
    (∀ i rest, expectedPrev s.tabstops s.activeTabstop = i :: rest →
      ∃ s' sel', prevGo fuel s 0 = some (s', some sel') ∧
        s'.activeTabstop = i ∧ s'.tabstops = s.tabstops ∧ s'.ranges = s.ranges ∧
        i < s.activeTabstop ∧
        NavWF s' R ∧ SelOK R sel' ∧
        rest = expectedPrev s'.tabstops s'.activeTabstop)
  | 0, s, R, _, _, hfuel => absurd hfuel (by omega)
  | fuel + 1, s, R, hwf, hlt, hfuel => by
    cases ha : s.activeTabstop with
    | zero =>
      constructor
      · intro _
        refine ⟨s, ?_⟩
        rw [prevGo, if_neg (by rw [ha]; exact fun h => h rfl)]
      · intro i rest hcons
        rw [expectedPrev_zero] at hcons
        cases hcons
    | succ b =>
      have hbl : b < s.tabstops.length := by omega
      obtain ⟨t1, ht1⟩ : ∃ t1, s.tabstops.get? b = some t1 := by
        cases hq : s.tabstops.get? b with
        | none =>
          have := List.get?_eq_none.1 hq
          omega
        | some t1 => exact ⟨t1, rfl⟩
      have hb1 : s.activeTabstop - 1 = b := by omega
      have hne0 : ¬s.activeTabstop = 0 := by omega
      have hwf1 : NavWF { s with activeTabstop := b } R := hwf
      have hget1 : ({ s with activeTabstop := b } :
          ActiveSnippet).tabstops.get?
          ({ s with activeTabstop := b } :
            ActiveSnippet).activeTabstop = some t1 := ht1
      cases hnv : nonVacuous s.tabstops b with
      | true =>
        have hnv1 : nonVacuous
            ({ s with activeTabstop := b } : ActiveSnippet).tabstops
            ({ s with activeTabstop := b } : ActiveSnippet).activeTabstop =
            true := hnv
        rcases activate_ok .Backward hwf1 hget1 hnv1 with ⟨anc, sel', hact, hselok⟩
        constructor
        · intro hemp
          rw [expectedPrev_cons hnv] at hemp
          cases hemp
        · intro i rest hcons
          rw [expectedPrev_cons hnv] at hcons
          injection hcons with h1 h2
          refine ⟨{ ranges := s.ranges,
                    activeTabstops := b :: anc,
                    activeTabstop := b,
                    tabstops := s.tabstops }, sel', ?_, h1, rfl, rfl,
            by omega, hwf, hselok, by exact h2.symm⟩
          rw [prevGo, if_pos hne0]
          simp only [hb1]
          simp only [hact]
          try rfl
      | false =>
        have hnv1 : nonVacuous
            ({ s with activeTabstop := b } : ActiveSnippet).tabstops
            ({ s with activeTabstop := b } : ActiveSnippet).activeTabstop =
            false := hnv
        have hvac := @activate_vacuous _ 0 .Backward _ hget1 hnv1
        have IH := prevGo_exp fuel { s with activeTabstop := b } R hwf1 hbl
          (show b < fuel by omega)
        have hskip : expectedPrev s.tabstops (b + 1) =
            expectedPrev s.tabstops b := expectedPrev_skip hnv
        constructor
        · intro hemp
          rw [hskip] at hemp
          rcases IH.1 hemp with ⟨s', hs'⟩
          refine ⟨s', ?_⟩
          rw [prevGo, if_pos hne0]
          simp only [hb1]
          simp only [hvac]
          exact hs'
        · intro i rest hcons
          rw [hskip] at hcons
          rcases IH.2 i rest hcons with
            ⟨s', sel', heq, hA, hB, hC, hD, hF, hG, hH⟩
          have hD' : i < b := hD
          refine ⟨s', sel', ?_, hA, hB, hC, by omega, hF, hG, hH⟩
          rw [prevGo, if_pos hne0]
          simp only [hb1]
          simp only [hvac]
          exact heq

/-- Iterating `prev_tabstop` visits exactly `expectedPrev`. -/
theorem visitsPrev_spec : ∀ (fuel : Nat) (s : ActiveSnippet) (sel : Selection)
    (R : Range),
    NavWF s R → SelOK R sel →
    s.activeTabstop < s.tabstops.length →
    s.activeTabstop < fuel →
    visitsPrev fuel s sel = some (expectedPrev s.tabstops s.activeTabstop)
  | 0, _, _, _, _, _, _, hfuel => absurd hfuel (by omega)
  | fuel + 1, s, sel, R, hwf, hsel, hlt, hfuel => by
    have hprev := prevGo_exp (s.tabstops.length + 1) s R hwf hlt (by omega)
    rw [visitsPrev]
    unfold ActiveSnippet.prevTabstop
    simp only [primaryIdxOf_single hwf.1 hsel]
    cases hexp : expectedPrev s.tabstops s.activeTabstop with
    | nil =>
      rcases hprev.1 hexp with ⟨s', hs'⟩
      simp only [hs']
    | cons i rest =>
      rcases hprev.2 i rest hexp with
        ⟨s', sel', heq, hA, hB, hC, hD, hF, hG, hH⟩
      have hrec : visitsPrev fuel s' sel' = some rest := by
        rw [visitsPrev_spec fuel s' sel' R hF hG
          (by rw [hA, hB]; omega)
          (by rw [hA]; omega), hH]
      simp only [heq, hrec, hA]

/-! ## Claim theorems -/

/-- C3 (counterexample): on a concrete four-tabstop session starting from
the first tabstop (resolved index 0 active), repeated `next_tabstop` visits
indices 1, 2, 3 and reports completion on the visit to index 3 — the highest
resolved index, not resolved index 0, which is never visited. -/
theorem claim_C3_counterexample :
    navSession.activeTabstop = 0 ∧
    visitsNext 10 navSession navSelection =
      some [(1, false), (2, false), (3, true)] ∧
    ((3 : Nat) ≠ 0) ∧
    (∀ p ∈ [((1 : Nat), false), ((2 : Nat), false), ((3 : Nat), true)],
      p.1 ≠ 0) :=
  ⟨rfl, rfl, by decide, by decide⟩

/-- C3 (amended): in a session with one top-level insertion range containing
all tabstop ranges and well-formed parent links, repeated `next_tabstop`
visits exactly the non-vacuous tabstops with resolved indices strictly above
the current one, each exactly once, in ascending order, with the completion
flag true exactly on a visit to the highest resolved index `N-1` (not index
0, which the session starts on); repeated `prev_tabstop` visits exactly the
non-vacuous indices strictly below the current one, in descending order,
down to and including index 0, and never reports completion (it returns no
flag at all). -/
theorem claim_C3_amended (s : ActiveSnippet) (sel : Selection) (R : Range)
    (fuel : Nat) (hwf : NavWF s R) (hsel : SelOK R sel)
    (hlt : s.activeTabstop < s.tabstops.length)
    (hfuelN : s.tabstops.length - s.activeTabstop ≤ fuel)
    (hfuelP : s.activeTabstop < fuel) :
    (visitsNext fuel s sel = some (expectedNext s.tabstops s.activeTabstop) ∧
      ((expectedNext s.tabstops s.activeTabstop).map Prod.fst).Chain' (· < ·) ∧
      (∀ i flag, (i, flag) ∈ expectedNext s.tabstops s.activeTabstop ↔
        (s.activeTabstop < i ∧ i < s.tabstops.length ∧
          nonVacuous s.tabstops i = true ∧
          flag = decide (i + 1 = s.tabstops.length)))) ∧
    (visitsPrev fuel s sel = some (expectedPrev s.tabstops s.activeTabstop) ∧
      (expectedPrev s.tabstops s.activeTabstop).Chain' (· > ·) ∧
      (∀ i, i ∈ expectedPrev s.tabstops s.activeTabstop ↔
        (i < s.activeTabstop ∧ nonVacuous s.tabstops i = true))) := by
  refine ⟨⟨visitsNext_spec fuel s sel R hwf hsel hlt hfuelN, ?_, ?_⟩,
    visitsPrev_spec fuel s sel R hwf hsel hlt hfuelP, ?_, ?_⟩
  · unfold expectedNext
    rw [List.map_map]
    have : (Prod.fst ∘ fun i => (i, decide (i + 1 = s.tabstops.length))) =
        fun i : Nat => i := rfl
    rw [this, List.map_id']
    rw [List.chain'_iff_pairwise]
    exact (List.pairwise_lt_range s.tabstops.length).filter _
  · intro i flag
    unfold expectedNext
    simp only [List.mem_map, List.mem_filter, List.mem_range,
      Bool.and_eq_true, decide_eq_true_eq, Prod.mk.injEq]
    constructor
    · rintro ⟨j, ⟨hjlen, hja, hjnv⟩, hji, hjf⟩
      subst hji
      exact ⟨hja, hjlen, hjnv, hjf.symm⟩
    · rintro ⟨h1, h2, h3, h4⟩
      exact ⟨i, ⟨h2, h1, h3⟩, rfl, h4.symm⟩
  · unfold expectedPrev
    rw [List.chain'_iff_pairwise]
    rw [List.pairwise_reverse]
    exact (List.pairwise_lt_range s.activeTabstop).filter _
  · intro i
    unfold expectedPrev
    simp only [List.mem_reverse, List.mem_filter, List.mem_range]

/-- Witness for the amended C3 at the concrete `navSession`. -/
theorem claim_C3_witness :
    visitsNext 10 navSession navSelection =
      some (expectedNext navSession.tabstops navSession.activeTabstop) ∧
    visitsPrev 10 navSession navSelection =
      some (expectedPrev navSession.tabstops navSession.activeTabstop) := by
  have h := claim_C3_amended navSession navSelection ⟨0, 12⟩ 10
    ⟨rfl, by decide, by unfold ParentsWF; decide⟩
    (show Range.contains ⟨0, 12⟩ (SRange.toRange ⟨9, 9⟩) = true by decide)
    (by decide) (by decide) (by decide)
  exact ⟨h.1.1, h.2.1⟩

/-- C1 (counterexample): running the elaborate-and-render pipeline on the
`macro_rules` template with newline replacement `"\t\n"` and a resolver that
always returns none produces, in resolved table order, the single ranges
`[53,53) [13,17) [42,42) [26,26)` — not the ranges `[42,42) [13,17)
[26,26) [53,53)` the claim asserts for resolved indices 0, 1, 2, 3. -/
theorem claim_C1_counterexample :
    (c1Run.map fun p => p.1.tabstops.map RTabstop.ranges) =
      some [[⟨53, 53⟩], [⟨13, 17⟩], [⟨42, 42⟩], [⟨26, 26⟩]] ∧
    ([[(⟨53, 53⟩ : Range)], [⟨13, 17⟩], [⟨42, 42⟩], [⟨26, 26⟩]] ≠
      [[⟨42, 42⟩], [⟨13, 17⟩], [⟨26, 26⟩], [⟨53, 53⟩]]) :=
  ⟨rfl, by decide⟩

/-- C1 (amended): the pipeline yields exactly the claimed text and exactly 4
tabstops in resolved order — index 0 (the synthesized `$0`) first, then raw
indices ascending — but with single ranges `$0 ↦ [53,53)`,
`$1 ↦ [13,17)` (the placeholder `"name"`), `$2 ↦ [42,42)`, `$3 ↦ [26,26)`. -/
theorem claim_C1_amended :
    c1Run = some
      (⟨[⟨[⟨53, 53⟩], none, .Empty⟩,
         ⟨[⟨13, 17⟩], none, .Placeholder⟩,
         ⟨[⟨42, 42⟩], none, .Empty⟩,
         ⟨[⟨26, 26⟩], none, .Empty⟩],
        [⟨0, 53⟩]⟩,
       "macro_rules! name \x7b\t\n    () => \x7b\t\n        \t\n    \x7d;\t\n\x7d",
       53) :=
  rfl

/-- C4 (code evaluated at the failing input): after `map` over an insertion
of 2 characters exactly at a range's start boundary, a non-empty active
range `[5,8)` absorbs the insertion (becomes `[5,10)`) and a non-active
range `[10,12)` excludes it (becomes `[12,14)`), as the claim says — but an
*empty* active range `[5,5)` stays `[5,5)` instead of growing to `[5,7)`:
the active branch maps an empty range's end with `Assoc::Before`. -/
theorem claim_C4_map_bias :
    mapSessionB.map ⟨5, 2⟩ = some
      { ranges := [⟨0, 22⟩],
        activeTabstops := [0],
        activeTabstop := 0,
        tabstops := [⟨[⟨5, 10⟩], none, .Empty⟩] } ∧
    mapSessionA.map ⟨10, 2⟩ = some
      { ranges := [⟨0, 22⟩],
        activeTabstops := [0],
        activeTabstop := 0,
        tabstops :=
          [⟨[⟨5, 5⟩], none, .Empty⟩,
           ⟨[⟨12, 14⟩], none, .Empty⟩] } ∧
    mapSessionA.map ⟨5, 2⟩ = some
      { ranges := [⟨0, 22⟩],
        activeTabstops := [0],
        activeTabstop := 0,
        tabstops :=
          [⟨[⟨5, 5⟩], none, .Empty⟩,
           ⟨[⟨12, 14⟩], none, .Empty⟩] } ∧
    ((⟨5, 5⟩ : Range) ≠ ⟨5, 7⟩) :=
  ⟨rfl, rfl, rfl, by decide⟩

/-- C5 (code evaluated at the failing input): splicing a freshly rendered
2-tabstop snippet into a 2-tabstop session at active tabstop 1 (parent 0)
re-parents the inserted top-level tabstop to parent 0 and shifts the
inserted internal parent link by the insertion offset, but the resulting
table has 3 records, not 2 + 2 = 4: the `splice` over the inclusive range
`active..=active` removes the active tabstop's own record. -/
theorem claim_C5_splice :
    spliceSession.insertSnippet spliceInserted = some
      { ranges := [⟨0, 10⟩],
        activeTabstops := [1],
        activeTabstop := 1,
        tabstops :=
          [⟨[⟨0, 4⟩], none, .Empty⟩,
           ⟨[⟨1, 2⟩], some 0, .Empty⟩,
           ⟨[⟨1, 1⟩], some 1, .Empty⟩] } ∧
    spliceSession.tabstops.length = 2 ∧
    spliceInserted.tabstops.length = 2 ∧
    ((3 : Nat) ≠ 2 + 2) :=
  ⟨rfl, rfl, rfl, by decide⟩

/-- C6 (counterexample): elaborating `"a$1${1:x}b"` keeps, for raw index 1,
the *first* record — the bare `$1`, which is a placeholder with empty
default — rather than the record carrying the placeholder `"x"`. -/
theorem claim_C6_counterexample :
    ((Snippet.new alwaysBuilds dupPlaceholderTemplate).map fun s =>
        s.tabstops.map fun t => (t.idx, t.kind)) =
      some [(0, .Empty), (1, .Placeholder .nil)] ∧
    TabstopKind.Placeholder SElementList.nil ≠
      TabstopKind.Placeholder (.cons (.Text "x") .nil) :=
  ⟨rfl, by simp⟩

/-- C6 (amended): `"a$1$1b"` elaborates to exactly one tabstop for raw
index 1 (plus the synthesized `$0`) whose rendered range list has two
entries; `"a$1${1:x}b"` also elaborates to exactly one tabstop for raw
index 1, but it keeps the first record — the bare `$1`, elaborated as a
placeholder with empty default — so the `"x"` default is dropped and both
templates render `"ab"`.  Deduplication prefers a record only over one
whose kind is the `Empty` *variant* (produced only by a failed transform),
not over a bare stop. -/
theorem claim_C6_amended :
    ((Snippet.new alwaysBuilds dupTemplate).map fun s =>
        s.tabstops.map fun t => (t.idx, t.kind)) =
      some [(0, .Empty), (1, .Placeholder .nil)] ∧
    (dupRun.map fun p => (p.2.1, p.1.tabstops.map RTabstop.ranges)) =
      some ("ab", [[⟨2, 2⟩], [⟨1, 1⟩, ⟨1, 1⟩]]) ∧
    ((Snippet.new alwaysBuilds dupPlaceholderTemplate).map fun s =>
        s.tabstops.map fun t => (t.idx, t.kind)) =
      some [(0, .Empty), (1, .Placeholder .nil)] ∧
    (dupPlaceholderRun.map fun p => (p.2.1, p.1.tabstops.map RTabstop.ranges)) =
      some ("ab", [[⟨2, 2⟩], [⟨1, 1⟩, ⟨1, 1⟩]]) :=
  ⟨rfl, rfl, rfl, rfl⟩

/-- C8 (counterexample): rendering `"${1:$2}"` promotes the rendered kind of
tabstop `$1` to `Placeholder` although its default (`$2`) rendered to
zero-length text — the whole rendered text is `""` and the recorded range is
`[0,0)` — contradicting the claim that promotion happens only when the
default produced non-zero-length text. -/
theorem claim_C8_counterexample :
    (emptyDefaultRun.map fun p =>
        (p.2.1, p.1.tabstops.map fun t => (t.kind, t.ranges))) =
      some ("", [(.Empty, [⟨0, 0⟩]),
                 (.Placeholder, [⟨0, 0⟩]),
                 (.Empty, [⟨0, 0⟩])]) ∧
    RTabstopKind.Placeholder ≠ RTabstopKind.Empty :=
  ⟨rfl, by decide⟩

/-- C10 (counterexample): `ActiveSnippet::new` does not always return an
activation selection: on a rendered snippet whose tabstop 0 is a placeholder
with one empty range — obtainable by rendering `"${0:$1}"` — activation of
tabstop 0 fails and the `expect` in `new` panics (modelled as `none`), even
though the snippet has exactly one tabstop and the claim promises a
`(none-session, selection)` result. -/
theorem claim_C10_counterexample :
    ActiveSnippet.new 0 .Forward vacuousZeroSnippet = none ∧
    vacuousZeroSnippet.tabstops.length = 1 :=
  ⟨rfl, rfl⟩

/-- C2: for every raw template tree (raw tabstop numbers possibly sparse,
duplicated or out of order) and any regex-compiler behaviour, `Snippet::new`
succeeds; the resulting table is non-empty, headed by the raw-index-0 record
(so resolved index 0 exists), strictly sorted by raw index (resolved indices
are exactly the dense positions `0..N`), every tabstop reference in the
element tree — including inside placeholder and variable default sub-trees,
recursively — is a valid resolved position, as is every parent link; and
when the template never wrote `$0` the head record is the synthesized
`Empty` tabstop and a trailing `$0` reference was appended to the root
elements. -/
theorem claim_C2 (buildOk : String → Bool) (raw : PElementList) :
    ∃ s : Snippet, Snippet.new buildOk raw = some s ∧
      s.tabstops ≠ [] ∧
      (s.tabstops.map Tabstop.idx).head? = some 0 ∧
      (s.tabstops.map Tabstop.idx).Chain' (· < ·) ∧
      s.elements.refsBelow s.tabstops.length = true ∧
      (∀ t ∈ s.tabstops, t.refsBelow s.tabstops.length = true) ∧
      ((∀ t ∈ (elaborateList buildOk none raw).2, t.idx ≠ 0) →
        s.tabstops.head? = some ⟨0, none, .Empty⟩ ∧
        s.elements.getLast? = some (.Tabstop 0)) :=
  snippetNew_invariants buildOk raw

/-- Witness for C2 at the concrete template `"x"` (no tabstops written, so
the `$0` synthesis clause fires). -/
theorem claim_C2_witness :
    ∃ s : Snippet, Snippet.new alwaysBuilds (listP [.Text "x"]) = some s ∧
      s.tabstops ≠ [] ∧
      (s.tabstops.map Tabstop.idx).head? = some 0 ∧
      (s.tabstops.map Tabstop.idx).Chain' (· < ·) ∧
      s.elements.refsBelow s.tabstops.length = true ∧
      (∀ t ∈ s.tabstops, t.refsBelow s.tabstops.length = true) ∧
      s.tabstops.head? = some ⟨0, none, .Empty⟩ ∧
      s.elements.getLast? = some (.Tabstop 0) := by
  rcases claim_C2 alwaysBuilds (listP [.Text "x"]) with
    ⟨s, h1, h2, h3, h4, h5, h6, h7⟩
  have h8 := h7 (by intro t ht; exact absurd ht (by intro h; cases h))
  exact ⟨s, h1, h2, h3, h4, h5, h6, h8.1, h8.2⟩

/-- C7 (counterexample): with an empty range in the sub-set, the two-pointer
`is_subset` and the naive all-pairs containment check disagree: the
super-range `[0,5)` contains the empty sub-range `[5,5)` under
`Range::contains`, but the skip guard `ra.end <= rb.start && ra.start <
rb.start` discards `[0,5)` before the containment is tested. -/
theorem claim_C7_counterexample :
    isSubset [⟨0, 5⟩] [⟨5, 5⟩] = false ∧
    isSubsetNaive [⟨0, 5⟩] [⟨5, 5⟩] = true := by
  constructor
  · simp [isSubset, Range.contains]
  · decide

/-- C7 (amended): for sequences of sorted, pairwise-non-overlapping
(adjacency permitted) and *non-empty* ranges, `is_subset` equals the naive
all-pairs containment check; the claim's two concrete examples hold. -/
theorem claim_C7_amended :
    (∀ sup sub : List Range, SortedDisjoint sup → SortedDisjoint sub →
      AllNonEmpty sup → AllNonEmpty sub →
      isSubset sup sub = isSubsetNaive sup sub) ∧
    isSubset [⟨0, 10⟩] [⟨2, 5⟩] = true ∧
    isSubset [⟨0, 5⟩, ⟨7, 10⟩] [⟨4, 8⟩] = false := by
  refine ⟨isSubset_eq_naive, ?_, ?_⟩
  · simp [isSubset, Range.contains]
  · simp [isSubset, Range.contains]

/-- Witness for the amended C7 at the claim's first example. -/
theorem claim_C7_witness :
    isSubset [⟨0, 10⟩] [⟨2, 5⟩] = isSubsetNaive [⟨0, 10⟩] [⟨2, 5⟩] :=
  claim_C7_amended.1 [⟨0, 10⟩] [⟨2, 5⟩]
    (by simp [SortedDisjoint]) (by simp [SortedDisjoint])
    (by intro r hr; simp at hr; subst hr; decide)
    (by intro r hr; simp at hr; subst hr; decide)

/-- C9 (counterexample): a transform whose option string is the unsupported
character `"x"` (not one of `i`, `m`, `g`) is *not* discarded: with a regex
that builds, `Transform::new` still returns the compiled transform, and the
owning tabstop keeps `Transform` kind instead of degrading to `Empty`. -/
theorem claim_C9_counterexample :
    Transform.new alwaysBuilds ⟨"a", [], "x"⟩ =
      some ⟨⟨"a", false, false⟩, false, []⟩ ∧
    ("x".toList.all fun c =>
      decide (c ≠ 'i') && decide (c ≠ 'm') && decide (c ≠ 'g')) = true ∧
    (elaborateElem alwaysBuilds none (.Tabstop 1 (some ⟨"a", [], "x"⟩))).2 =
      [⟨1, none, .Transform ⟨⟨"a", false, false⟩, false, []⟩⟩] :=
  ⟨rfl, by decide, rfl⟩

/-- C9 (amended): a malformed regular expression (one the external compiler
rejects) makes `Transform::new` return `none` and the owning tabstop degrade
to a plain `Empty` stop, and elaboration of the whole snippet still
succeeds; an unsupported option character, however, is only logged — the
transform is kept whenever the regex itself builds. -/
theorem claim_C9_amended (buildOk : String → Bool) (tr : PTransform) (n : Nat)
    (parent : Option Nat) (rest : PElementList) :
    (buildOk tr.regex = false →
      Transform.new buildOk tr = none ∧
      (elaborateElem buildOk parent (.Tabstop n (some tr))).2 =
        [⟨n, parent, .Empty⟩]) ∧
    (buildOk tr.regex = true → (Transform.new buildOk tr).isSome = true) ∧
    (Snippet.new buildOk (.cons (.Tabstop n (some tr)) rest)).isSome = true := by
  refine ⟨?_, ?_, ?_⟩
  · intro h
    have h1 : Transform.new buildOk tr = none := by
      unfold Transform.new
      rw [h]
      simp
    exact ⟨h1, by simp [elaborateElem, h1]⟩
  · intro h
    unfold Transform.new
    rw [h]
    rfl
  · rcases snippetNew_invariants buildOk (.cons (.Tabstop n (some tr)) rest) with
      ⟨s, hs, _⟩
    rw [hs]
    rfl

/-- Witness for the amended C9: a rejected regex is dropped and the tabstop
degrades to `Empty`; an accepted one with a bad flag character is kept. -/
theorem claim_C9_witness :
    (Transform.new (fun _ => false) ⟨"(", [], "x"⟩ = none ∧
      (elaborateElem (fun _ => false) none (.Tabstop 1 (some ⟨"(", [], "x"⟩))).2 =
        [⟨1, none, .Empty⟩]) ∧
    (Transform.new alwaysBuilds ⟨"(", [], "x"⟩).isSome = true ∧
    (Snippet.new (fun _ => false) (.cons (.Tabstop 1 (some ⟨"(", [], "x"⟩)) .nil)).isSome
      = true := by
  have h := claim_C9_amended (fun _ => false) ⟨"(", [], "x"⟩ 1 none .nil
  have h2 := claim_C9_amended alwaysBuilds ⟨"(", [], "x"⟩ 1 none .nil
  exact ⟨h.1 rfl, h2.2.1 rfl, h.2.2⟩

/-- C10 (amended): `ActiveSnippet::new` always initializes the active
tabstop to resolved index 0; whenever tabstop 0 exists, is not a vacuous
placeholder (placeholder/choice kind with all ranges empty), the snippet has
at least one insertion range and tabstop 0's parent chain is well-formed,
it returns the activation selection, and the returned session value is
`none` exactly when the rendered snippet contains exactly one tabstop;
a returned session has active tabstop 0 and the snippet's tabstop table. -/
theorem claim_C10_amended (primaryIdx : Nat) (dir : Direction)
    (snippet : RenderedSnippet) (t0 : RTabstop)
    (hget : snippet.tabstops.get? 0 = some t0)
    (hvac : ¬(t0.hasPlaceholder = true ∧ t0.ranges.all Range.isEmptyR = true))
    (hranges : snippet.ranges ≠ [])
    (hanc : (ancestorList snippet.tabstops (snippet.tabstops.length + 1) 0).isSome) :
    ∃ (opt : Option ActiveSnippet) (sel : Selection),
      ActiveSnippet.new primaryIdx dir snippet = some (opt, sel) ∧
      (opt.isSome ↔ snippet.tabstops.length ≠ 1) ∧
      ∀ a, opt = some a → a.activeTabstop = 0 ∧ a.tabstops = snippet.tabstops ∧
        a.ranges = snippet.ranges := by
  have hlen0 : ¬snippet.ranges.length = 0 := by
    intro h
    exact hranges (List.length_eq_zero.1 h)
  cases hanc' : ancestorList snippet.tabstops (snippet.tabstops.length + 1) 0 with
  | none => rw [hanc'] at hanc; cases hanc
  | some anc =>
    unfold ActiveSnippet.new activateTabstop
    simp only [hget, hanc', if_neg hvac, if_neg hlen0]
    refine ⟨_, _, rfl, ?_, ?_⟩
    · by_cases h1 : snippet.tabstops.length ≠ 1 <;> simp [h1]
    · intro a ha
      by_cases h1 : snippet.tabstops.length ≠ 1
      · rw [if_pos h1] at ha
        cases ha
        exact ⟨rfl, rfl, rfl⟩
      · rw [if_neg h1] at ha
        cases ha

/-- Witness for the amended C10 at a concrete two-tabstop snippet. -/
theorem claim_C10_witness :
    ∃ (opt : Option ActiveSnippet) (sel : Selection),
      ActiveSnippet.new 0 .Forward c10Snippet = some (opt, sel) ∧
      (opt.isSome ↔ c10Snippet.tabstops.length ≠ 1) ∧
      ∀ a, opt = some a → a.activeTabstop = 0 ∧ a.tabstops = c10Snippet.tabstops ∧
        a.ranges = c10Snippet.ranges :=
  claim_C10_amended 0 .Forward c10Snippet ⟨[⟨0, 0⟩], none, .Empty⟩
    rfl (by decide) (by decide) (by decide)

/-- C8 (amended): every rendered tabstop's kind starts as `Empty` — `Choice`
and `Transform` kinds pre-populated aside — and `render_tabstop` promotes a
placeholder's rendered kind to `Placeholder` exactly when the elaborated
default *element list* is non-empty, even when that default renders to
zero-length text; a placeholder with an empty default element list records
an empty range (`start = end = off`) and leaves text, offset and kind
untouched. -/
theorem claim_C8_amended :
    (∀ (s : Snippet) (i : Nat) (t : Tabstop), s.tabstops.get? i = some t →
      ((s.prepareRender).tabstops.get? i).map RTabstop.kind = some
        (match t.kind with
         | .Choice cs => .Choice cs
         | .Transform tr => .Transform tr
         | _ => .Empty)) ∧
    (∀ (fuel : Nat) (src : Snippet) (ctx : RenderCtx) (idx : Nat)
        (st st2 : RState) (srcTab : Tabstop) (d : SElementList),
      renderTabstop fuel src ctx idx st = some st2 →
      src.tabstops.get? idx = some srcTab →
      srcTab.kind = .Placeholder d →
      (d ≠ .nil → (st2.dst.tabstops.get? idx).map RTabstop.kind =
        some .Placeholder) ∧
      (d = .nil → st2.text = st.text ∧ st2.off = st.off ∧
        ∃ t0, st.dst.tabstops.get? idx = some t0 ∧
          st2.dst.tabstops.get? idx =
            some { t0 with ranges := t0.ranges ++ [⟨st.off, st.off⟩] })) := by
  constructor
  · intro s i t hget
    unfold Snippet.prepareRender
    simp only [List.get?_map, hget, Option.map_some']
    cases t.kind <;> rfl
  · intro fuel src ctx idx st st2 srcTab d hrend hget hkind
    cases fuel with
    | zero => cases hrend
    | succ fuel =>
      rw [renderTabstop] at hrend
      simp only [hget] at hrend
      by_cases hif : idx < st.dst.tabstops.length
      · rw [if_pos hif] at hrend
        obtain ⟨t0, ht0⟩ : ∃ t0, st.dst.tabstops.get? idx = some t0 := by
          cases hq : st.dst.tabstops.get? idx with
          | none =>
            have := List.get?_eq_none.1 hq
            omega
          | some t0 => exact ⟨t0, rfl⟩
        cases d with
        | nil =>
          simp only [hkind] at hrend
          cases hrend
          refine ⟨fun hne => absurd rfl hne, fun _ => ⟨rfl, rfl, t0, ht0, ?_⟩⟩
          exact modifyTabstop_get _ ht0
        | cons d0 drest =>
          simp only [hkind] at hrend
          cases h1 : renderList fuel src ctx (.cons d0 drest) st with
          | none => simp only [h1] at hrend; cases hrend
          | some st1 =>
            simp only [h1] at hrend
            cases hrend
            refine ⟨fun _ => ?_, fun heq => by cases heq⟩
            obtain ⟨t1, ht1⟩ : ∃ t1, st1.dst.tabstops.get? idx = some t1 := by
              have hlen := renderList_len fuel src ctx (.cons d0 drest) st st1 h1
              cases hq : st1.dst.tabstops.get? idx with
              | none =>
                have := List.get?_eq_none.1 hq
                omega
              | some t1 => exact ⟨t1, rfl⟩
            have hMid := modifyTabstop_get
              (fun t => { t with kind := RTabstopKind.Placeholder }) ht1
            have hFin := modifyTabstop_get
              (fun t => { t with ranges := t.ranges ++ [⟨st.off, st1.off⟩] }) hMid
            simp only [hFin]
            rfl
      · rw [if_neg hif] at hrend
        cases hrend

/-- Witness for the amended C8: rendering tabstop 1 of the elaborated
`"${1:$2}"` promotes its kind to `Placeholder` although the default renders
to zero-length text. -/
theorem claim_C8_witness :
    (c8St2.dst.tabstops.get? 1).map RTabstop.kind =
      some RTabstopKind.Placeholder :=
  (claim_C8_amended.2 1000 c8Snippet noVarCtx 1
      ⟨c8Snippet.prepareRender, "", 0⟩ c8St2
      ⟨1, none, .Placeholder (.cons (.Tabstop 2) .nil)⟩
      (.cons (.Tabstop 2) .nil) rfl rfl rfl).1
    (by intro h; cases h)

end Helix
